import Mathlib

set_option maxRecDepth 8000

/-!
Verification development for the branch-reconciliation and manifest-normalization
engine in `scripts/sync-environment-branches.py`.  The Python source is shallowly
embedded: pure helpers become Lean functions over `List Char` / `String`, the
manifest document becomes a small structured-value type, and the orchestration
layer becomes a writer/except monad recording the external effects (git commands,
file writes, diagnostics) that a run would perform.
-/

namespace SyncEnvBranches

/-! ### String utilities modelling the Python primitives used by the script -/

/-- Check whether the first list is an initial segment of the second. -/
def leadsWith : List Char → List Char → Bool
  | [], _ => true
  | _ :: _, [] => false
  | p :: ps, c :: cs => p == c && leadsWith ps cs

/-- Locate the first occurrence of `sep` in a character list, returning the
characters strictly before it and the characters strictly after it. -/
def findSplit (sep : List Char) : List Char → Option (List Char × List Char)
  | [] => if leadsWith sep [] then some ([], []) else none
  | c :: cs =>
    if leadsWith sep (c :: cs) then some ([], (c :: cs).drop sep.length)
    else
      match findSplit sep cs with
      | some (a, b) => some (c :: a, b)
      | none => none

/-- Python `str.split(sep, maxsplit)`: perform at most `maxsplit` splits, left to
right; the final element carries the unsplit remainder. -/
def pySplit (sep : List Char) : Nat → List Char → List (List Char)
  | 0, s => [s]
  | m + 1, s =>
    match findSplit sep s with
    | none => [s]
    | some (a, b) => a :: pySplit sep m b

/-- Unlimited Python split: since every found separator consumes at least one
character, `s.length` splits always suffice. -/
def pySplitAll (sep : List Char) (s : List Char) : List (List Char) :=
  pySplit sep s.length s

theorem leadsWith_nil_of_ne (sep : List Char) (h : sep ≠ []) : leadsWith sep [] = false := by
  cases sep with
  | nil => exact absurd rfl h
  | cons p ps => rfl

theorem findSplit_length_lt (sep : List Char) (hsep : sep ≠ []) :
    ∀ s a b, findSplit sep s = some (a, b) → b.length < s.length := by
  intro s
  induction s with
  | nil =>
    intro a b hfs
    simp [findSplit, leadsWith_nil_of_ne sep hsep] at hfs
  | cons c cs ih =>
    intro a b hfs
    by_cases hl : leadsWith sep (c :: cs) = true
    · simp [findSplit, hl] at hfs
      obtain ⟨_, hb⟩ := hfs
      subst hb
      have hslen : 1 ≤ sep.length := by
        cases sep with
        | nil => exact absurd rfl hsep
        | cons _ _ => simp
      simp [List.length_drop]
      omega
    · simp only [findSplit, hl, if_false] at hfs
      cases hfs' : findSplit sep cs with
      | none => rw [hfs'] at hfs; exact absurd hfs (by simp)
      | some p =>
        rw [hfs'] at hfs
        obtain ⟨a', b'⟩ := p
        simp at hfs
        obtain ⟨_, hb⟩ := hfs
        subst hb
        have := ih a' b' hfs'
        simp
        omega

theorem pySplit_stable (sep : List Char) (hsep : sep ≠ []) :
    ∀ m₁ m₂ s, s.length ≤ m₁ → s.length ≤ m₂ → pySplit sep m₁ s = pySplit sep m₂ s := by
  intro m₁
  induction m₁ with
  | zero =>
    intro m₂ s h₁ h₂
    have hs : s = [] := by
      cases s with
      | nil => rfl
      | cons c cs => simp at h₁
    subst hs
    cases m₂ with
    | zero => rfl
    | succ n => simp [pySplit, findSplit, leadsWith_nil_of_ne sep hsep]
  | succ n ih =>
    intro m₂ s h₁ h₂
    cases m₂ with
    | zero =>
      have hs : s = [] := by
        cases s with
        | nil => rfl
        | cons c cs => simp at h₂
      subst hs
      simp [pySplit, findSplit, leadsWith_nil_of_ne sep hsep]
    | succ k =>
      simp only [pySplit]
      cases hfs : findSplit sep s with
      | none => rfl
      | some p =>
        obtain ⟨a, b⟩ := p
        have hlt := findSplit_length_lt sep hsep s a b hfs
        have hb₁ : b.length ≤ n := by omega
        have hb₂ : b.length ≤ k := by omega
        dsimp only
        rw [ih k b hb₁ hb₂]

theorem pySplitAll_ne_nil (sep : List Char) (s : List Char) :
    pySplitAll sep s ≠ [] := by
  unfold pySplitAll
  cases h : s.length with
  | zero => simp [pySplit]
  | succ n =>
    simp only [pySplit]
    cases findSplit sep s with
    | none => simp
    | some p => simp

theorem pySplit_length (sep : List Char) (hsep : sep ≠ []) :
    ∀ m s, (pySplit sep m s).length = min (m + 1) (pySplitAll sep s).length := by
  intro m
  induction m with
  | zero =>
    intro s
    have h1 : 1 ≤ (pySplitAll sep s).length := by
      have := pySplitAll_ne_nil sep s
      cases h : pySplitAll sep s with
      | nil => exact absurd h this
      | cons x xs => simp
    simp [pySplit]
    omega
  | succ n ih =>
    intro s
    simp only [pySplit]
    cases hfs : findSplit sep s with
    | none =>
      have : pySplitAll sep s = [s] := by
        unfold pySplitAll
        cases hl : s.length with
        | zero => simp [pySplit]
        | succ k => simp [pySplit, hfs]
      rw [this]
      simp
    | some p =>
      obtain ⟨a, b⟩ := p
      have hlt := findSplit_length_lt sep hsep s a b hfs
      have hs1 : 1 ≤ s.length := by omega
      have hall : pySplitAll sep s = a :: pySplit sep (s.length - 1) b := by
        unfold pySplitAll
        cases hl : s.length with
        | zero => omega
        | succ k => simp [pySplit, hfs]
      have hstab : pySplit sep (s.length - 1) b = pySplitAll sep b := by
        unfold pySplitAll
        exact pySplit_stable sep hsep (s.length - 1) b.length b (by omega) (le_refl _)
      rw [hall, hstab]
      simp only [List.length_cons, ih b]
      omega

/-! ### Environment-branch candidacy (`process_remote_refs`, `print_environment_branches`)

Both sites run `branch.split("--", maxsplit=3)` and test the part count against
`SEGMENTS = 4`. -/

/-- The `"--"` separator used for environment branch names. -/
def dashes : List Char := ['-', '-']

/-- Model of `branch.split("--", maxsplit=3)` as used at both candidacy sites. -/
def envSegments (name : String) : List (List Char) :=
  pySplit dashes 3 name.toList

/-- A branch name qualifies as an environment branch when the limited split
produces exactly `SEGMENTS = 4` parts. -/
def qualifies_env_branch (name : String) : Bool :=
  (envSegments name).length == 4

/-- The unlimited `"--"` segmentation of a name. -/
def fullSegments (name : String) : List (List Char) :=
  pySplitAll dashes name.toList

/-- A five-segment name passes the candidacy test even though its full segment
count is 5, because `maxsplit=3` fuses every segment after the third into the
fourth part. -/
theorem c5_counterexample :
    qualifies_env_branch "ld--prod--eu--db--extra" = true ∧
    (fullSegments "ld--prod--eu--db--extra").length = 5 := by
  constructor <;> decide

/-- C5 (amended): a branch name is treated as an environment-branch candidate
iff its `"--"`-segment count is at least four (not exactly four): the
`maxsplit=3` split yields 4 parts exactly when the unlimited split yields 4 or
more.  `"ld--prod--eu--db"` qualifies and `"ld--prod"` does not, as the spec
says, but so does any name with more than four segments. -/
theorem c5_candidate_iff :
    (∀ name : String, qualifies_env_branch name = true ↔ 4 ≤ (fullSegments name).length) ∧
    qualifies_env_branch "ld--prod--eu--db" = true ∧
    qualifies_env_branch "ld--prod" = false := by
  refine ⟨fun name => ?_, by decide, by decide⟩
  unfold qualifies_env_branch envSegments fullSegments
  have h := pySplit_length dashes (by decide) 3 name.toList
  rw [h]
  simp only [beq_iff_eq]
  omega

/-! ### Worktree-listing parsing (`parse_worktrees`) -/

/-- Python dict insert-or-update: an existing key is updated in place, a new key
is appended at the end (insertion order preserved). -/
def dictUpd (m : List (String × String)) (k v : String) : List (String × String) :=
  match m with
  | [] => [(k, v)]
  | (k', v') :: tl => if k' = k then (k, v) :: tl else (k', v') :: dictUpd tl k v

/-- Python `str.split()` with no arguments: split on runs of whitespace,
discarding empty fields. -/
def pyWordsAux : List Char → List Char → List (List Char)
  | [], acc => if acc.isEmpty then [] else [acc.reverse]
  | c :: cs, acc =>
    if c.isWhitespace then
      if acc.isEmpty then pyWordsAux cs [] else acc.reverse :: pyWordsAux cs []
    else pyWordsAux cs (c :: acc)

/-- Whitespace split of a line into its columns. -/
def pyWords (s : List Char) : List (List Char) := pyWordsAux s []

/-- Python `str.splitlines()` restricted to newline separators: split on every
newline and drop the trailing empty fragment. -/
def pySplitlines (s : String) : List (List Char) :=
  let parts := pySplitAll ['\n'] s.toList
  if parts.getLast? = some [] then parts.dropLast else parts

/-- Strip the enclosing square brackets of the third worktree column: when the
column starts with `[`, the first and last characters are removed. -/
def stripBrackets (b : List Char) : List Char :=
  if b.head? = some '[' then (b.drop 1).dropLast else b

/-- Handling of one worktree-listing line: a line with exactly 3
whitespace-separated columns maps the bracket-stripped third column to the
first; every other line leaves the map unchanged. -/
def worktreeLine (m : List (String × String)) (line : List Char) : List (String × String) :=
  match pyWords line with
  | [p, _, b] => dictUpd m (String.mk (stripBrackets b)) (String.mk p)
  | _ => m

/-- Model of `parse_worktrees`: fold the per-line handler over the lines of the
`git worktree list` output. -/
def parse_worktrees (out : String) : List (String × String) :=
  (pySplitlines out).foldl worktreeLine []

/-- The three-line worktree example used by the specification. -/
def worktreeExample : String :=
  "/repo/main abc123 [main]\n/repo/wt1 def456 [ld--env--foo--bar]\ngarbage line here"

/-- The spec's example is wrong: `"garbage line here"` has exactly 3
whitespace-separated columns, so it is parsed (not ignored) and contributes the
entry `"here" ↦ "garbage"`; the resulting map is not the claimed two-entry map. -/
theorem c4_counterexample :
    parse_worktrees worktreeExample =
      [("main", "/repo/main"), ("ld--env--foo--bar", "/repo/wt1"), ("here", "garbage")] ∧
    parse_worktrees worktreeExample ≠
      [("main", "/repo/main"), ("ld--env--foo--bar", "/repo/wt1")] := by
  constructor <;> decide

/-- C4 (amended): a line contributes an entry exactly when it has 3
whitespace-separated columns — the bracket-stripped third column maps to the
first — and every line with a different column count is ignored; but the
example's third line `"garbage line here"` has exactly 3 columns, so the
resolved map for the example has the additional entry `"here" ↦ "garbage"`. -/
theorem c4_worktree_parsing :
    (∀ (m : List (String × String)) (line : List Char),
        (pyWords line).length ≠ 3 → worktreeLine m line = m) ∧
    (∀ (m : List (String × String)) (line p q b : List Char),
        pyWords line = [p, q, b] →
        worktreeLine m line = dictUpd m (String.mk (stripBrackets b)) (String.mk p)) ∧
    parse_worktrees worktreeExample =
      [("main", "/repo/main"), ("ld--env--foo--bar", "/repo/wt1"), ("here", "garbage")] := by
  refine ⟨fun m line hne => ?_, fun m line p q b heq => ?_, by decide⟩
  · unfold worktreeLine
    cases hw : pyWords line with
    | nil => rfl
    | cons x xs =>
      cases xs with
      | nil => rfl
      | cons y ys =>
        cases ys with
        | nil => rfl
        | cons z zs =>
          cases zs with
          | nil => rw [hw] at hne; simp at hne
          | cons w ws => rfl
  · unfold worktreeLine
    rw [heq]

/-- Witness for `c4_worktree_parsing`: the two-column line `"garbage line"` is
ignored. -/
theorem c4_worktree_parsing_witness :
    worktreeLine [] ("garbage line".toList) = [] :=
  c4_worktree_parsing.1 [] ("garbage line".toList) (by decide)

/-! ### Branch comparison (`get_branch_shortname`, `compare_branches`) -/

/-- Model of `get_branch_shortname`: split on the first `/` and keep the rest;
a name without `/` is returned unchanged. -/
def get_branch_shortname (branch_name : String) : String :=
  match pySplit ['/'] 1 branch_name.toList with
  | [_, rest] => String.mk rest
  | _ => branch_name

/-- Filter used on both ref sets: drop names ending in `HEAD`. -/
def notHead (n : String) : Bool := ! (("HEAD".toList).isSuffixOf n.toList)

/-- The remote branch set of `compare_branches`: short names of non-HEAD remote
refs. -/
def remoteShortSet (remoteRefs : Finset String) : Finset String :=
  (remoteRefs.filter (fun n => notHead n = true)).image get_branch_shortname

/-- The local branch set of `compare_branches`: non-HEAD local head names. -/
def localSet (localHeads : Finset String) : Finset String :=
  localHeads.filter (fun n => notHead n = true)

/-- Model of `compare_branches`: returns `(common, remote_only, local_only)`
computed by set algebra over the short names. -/
def compare_branches (remoteRefs localHeads : Finset String) :
    Finset String × Finset String × Finset String :=
  let remote := remoteShortSet remoteRefs
  let lo := localSet localHeads
  (remote ∩ lo, remote \ lo, lo \ remote)

/-- C9: for every pair of remote and local ref-name sets, the comparison
satisfies `common ∪ remoteOnly = remoteBranches`,
`common ∪ localOnly = localBranches` and
`common = remoteBranches ∩ localBranches`. -/
theorem c9_compare_invariant (remoteRefs localHeads : Finset String) :
    (compare_branches remoteRefs localHeads).1 ∪ (compare_branches remoteRefs localHeads).2.1 =
      remoteShortSet remoteRefs ∧
    (compare_branches remoteRefs localHeads).1 ∪ (compare_branches remoteRefs localHeads).2.2 =
      localSet localHeads ∧
    (compare_branches remoteRefs localHeads).1 =
      remoteShortSet remoteRefs ∩ localSet localHeads := by
  refine ⟨?_, ?_, rfl⟩ <;>
    · ext x
      simp only [compare_branches, Finset.mem_union, Finset.mem_inter, Finset.mem_sdiff]
      tauto

/-! ### Unmerged-marker gate in `read_file` -/

/-- Substring test modelling Python's `in` on strings. -/
def containsSub (s pat : List Char) : Bool := (findSplit pat s).isSome

/-- Substring test on `String`s. -/
def hasStr (s pat : String) : Bool := containsSub s.toList pat.toList

/-- The conflict-start marker. -/
def conflictStart : String := "<<<<<<<"

/-- The conflict-middle marker. -/
def conflictMid : String := "======="

/-- The conflict-end marker. -/
def conflictEnd : String := ">>>>>>>"

/-- Model of the unmerged-file gate in `read_file`: raise `typer.Exit(1)` when
all three conflict markers occur in the text and the file does not resolve to
the script's own path; otherwise return the text unchanged.  `isSelf` models
`str(path.resolve()) == __file__`. -/
def read_file (isSelf : Bool) (text : String) : Except Nat String :=
  if hasStr text conflictStart && hasStr text conflictEnd && hasStr text conflictMid
      && !isSelf then
    .error 1
  else
    .ok text

/-- C10: reading raises the fatal unmerged-file error (exit code 1) exactly when
all three markers occur together and the file is not the script itself; with the
marker set incomplete the text is returned unchanged. -/
theorem c10_read_file_markers (text : String) (isSelf : Bool) :
    (read_file isSelf text = .error 1 ↔
      (hasStr text conflictStart = true ∧ hasStr text conflictMid = true ∧
        hasStr text conflictEnd = true ∧ isSelf = false)) ∧
    (¬ (hasStr text conflictStart = true ∧ hasStr text conflictMid = true ∧
        hasStr text conflictEnd = true) →
      read_file isSelf text = .ok text) := by
  unfold read_file
  cases h1 : hasStr text conflictStart <;>
    cases h2 : hasStr text conflictMid <;>
      cases h3 : hasStr text conflictEnd <;>
        cases isSelf <;> simp

/-- Witness for `c10_read_file_markers`: text containing only two of the three
markers is returned unchanged. -/
theorem c10_read_file_markers_witness :
    read_file false "<<<<<<< a\n=======\nb" = .ok "<<<<<<< a\n=======\nb" :=
  (c10_read_file_markers "<<<<<<< a\n=======\nb" false).2 (by decide)

/-! ### Retry with exponential backoff (`run_git`, `GitBackoff`)

Modelled from the spec: the `backoff` library used by the decorators on
`run_git`/`run_git_cmd` is an external dependency (not part of this
repository); its `on_exception(expo, GitCommandError, max_time=5, max_tries=3)`
combinator is modelled as a bounded retry loop with doubling waits, giving up
after the configured `max_tries` attempts or once the configured `max_time` has
elapsed, and reporting the attempt count and elapsed time to the give-up
handler. -/

/-- THROTTLED_BACKOFF_MAX_TIME from the source. -/
def maxBackoffTime : Nat := 5

/-- THROTTLED_BACKOFF_MAX_TRIES from the source. -/
def maxBackoffTries : Nat := 3

/-- Outcome of a retried command: overall success flag, number of attempts
made, and total elapsed wait time in seconds. -/
structure RetryOutcome where
  ok : Bool
  tries : Nat
  elapsed : Nat
deriving DecidableEq

/-- Bounded exponential-backoff loop.  `attemptOk n` tells whether the `n`-th
attempt (1-based) succeeds; `fuel` counts the remaining allowed attempts,
`wait` the next doubling backoff interval. -/
def backoffLoop (attemptOk : Nat → Bool) (maxTime : Nat) :
    Nat → Nat → Nat → Nat → RetryOutcome
  | 0, t, el, _ => ⟨false, t, el⟩
  | fuel + 1, t, el, w =>
    if attemptOk t then ⟨true, t, el⟩
    else if fuel = 0 ∨ maxTime ≤ el then ⟨false, t, el⟩
    else backoffLoop attemptOk maxTime fuel (t + 1) (el + w) (w * 2)

/-- One retried git command under the source's decorator configuration
(3 tries, 5 seconds, waits 1, 2, 4, …). -/
def run_git_retry (attemptOk : Nat → Bool) : RetryOutcome :=
  backoffLoop attemptOk maxBackoffTime maxBackoffTries 1 0 1

/-- The give-up diagnostic of `GitBackoff._on_giveup`, which reports elapsed
time, try count, operation name and argument list. -/
def giveupMessage (module name : String) (args : List String) (elapsed tries : Nat) :
    String :=
  "Backoff giving up after " ++ toString elapsed ++ " seconds and " ++ toString tries
    ++ " tries calling " ++ module ++ "." ++ name ++ "(*" ++ toString args ++ ", **)"

/-- C7: a command failing twice with a transient error and succeeding on the
third attempt reports overall success after 3 tries; a command failing on all
attempts gives up as a failure with `tries = 3` within the 5-second budget, and
the give-up diagnostic records the try count, operation name and arguments. -/
theorem c7_retry_policy :
    run_git_retry (fun n => 3 ≤ n) = ⟨true, 3, 3⟩ ∧
    run_git_retry (fun _ => false) = ⟨false, 3, 3⟩ ∧
    hasStr (giveupMessage "m" "run_git" ["checkout"] 3 3) "3 tries" = true ∧
    hasStr (giveupMessage "m" "run_git" ["checkout"] 3 3) "run_git" = true ∧
    hasStr (giveupMessage "m" "run_git" ["checkout"] 3 3) "checkout" = true := by
  refine ⟨by decide, by decide, ?_, ?_, ?_⟩ <;> decide

/-! ### Manifest document model

The YAML manifest is represented by a structured value type: strings, booleans,
ordered lists and insertion-ordered mappings (Python dicts / toolbag `Mash`). -/

mutual
inductive Val where
  | vStr (s : String)
  | vBool (b : Bool)
  | vList (xs : VList)
  | vDict (kvs : VDict)
deriving DecidableEq
inductive VList where
  | nil
  | cons (v : Val) (tl : VList)
deriving DecidableEq
inductive VDict where
  | dnil
  | dcons (k : String) (v : Val) (tl : VDict)
deriving DecidableEq
end

/-- Number of keys of a mapping. -/
def dLen : VDict → Nat
  | .dnil => 0
  | .dcons _ _ tl => dLen tl + 1

/-- Mapping lookup (first occurrence). -/
def dGet : VDict → String → Option Val
  | .dnil, _ => none
  | .dcons k' v tl, k => if k' = k then some v else dGet tl k

/-- Key-presence test. -/
def dHas (d : VDict) (k : String) : Bool := (dGet d k).isSome

/-- Python dict assignment: update the existing key in place, else append. -/
def dSet : VDict → String → Val → VDict
  | .dnil, k, v => .dcons k v .dnil
  | .dcons k' v' tl, k, v =>
    if k' = k then .dcons k v tl else .dcons k' v' (dSet tl k v)

/-- Python `del d[k]`: remove the key.  A Python dict never holds duplicate
keys, so removing every occurrence is equivalent on all reachable states. -/
def dDel : VDict → String → VDict
  | .dnil, _ => .dnil
  | .dcons k' v tl, k => if k' = k then dDel tl k else .dcons k' v (dDel tl k)

/-- Append two mappings. -/
def dApp : VDict → VDict → VDict
  | .dnil, b => b
  | .dcons k v tl, b => .dcons k v (dApp tl b)

/-- Keep only the keys different from both given keys (the `unspecial`
comprehension of `fix_manifest`). -/
def dExclude2 : VDict → String → String → VDict
  | .dnil, _, _ => .dnil
  | .dcons k v tl, k₁, k₂ =>
    if k = k₁ ∨ k = k₂ then dExclude2 tl k₁ k₂ else .dcons k v (dExclude2 tl k₁ k₂)

/-- Convert an embedded list to a Lean list. -/
def VList.toList : VList → List Val
  | .nil => []
  | .cons v tl => v :: tl.toList

/-- Convert a Lean list to an embedded list. -/
def VList.ofList : List Val → VList
  | [] => .nil
  | v :: tl => .cons v (VList.ofList tl)

/-! ### `convert_booleans`

The Python function converts the string values `"true"`/`"false"` appearing as
direct dict values to booleans, recurses into dict values that are dicts, and
maps itself over list values — where non-dict items (in particular strings) are
returned unchanged by the top-level non-dict guard. -/

/-- ASCII lower-casing of one character. -/
def lowerChar (c : Char) : Char :=
  if 'A' ≤ c && c ≤ 'Z' then Char.ofNat (c.toNat + 32) else c

/-- ASCII `str.lower()`. -/
def lowerStr (s : String) : String := String.mk (s.toList.map lowerChar)

/-- String-to-boolean conversion applied to dict string values. -/
def tryBool (s : String) : Val :=
  if lowerStr s = "true" then .vBool true
  else if lowerStr s = "false" then .vBool false
  else .vStr s

mutual
/-- Model of `convert_booleans` applied to an arbitrary value: only dicts are
processed, every other value is returned unchanged. -/
def convert_booleans : Val → Val
  | .vDict d => .vDict (convertDictItems d)
  | v => v
/-- The loop of `convert_booleans` over the items of a dict. -/
def convertDictItems : VDict → VDict
  | .dnil => .dnil
  | .dcons k v tl => .dcons k (convertDictValue v) (convertDictItems tl)
/-- One dict value: dicts recurse, lists map `convert_booleans` over their
items, strings are boolean-converted, booleans stay. -/
def convertDictValue : Val → Val
  | .vDict d => .vDict (convertDictItems d)
  | .vList xs => .vList (convertListItems xs)
  | .vStr s => tryBool s
  | .vBool b => .vBool b
/-- List items receive `convert_booleans`, so only dict items change. -/
def convertListItems : VList → VList
  | .nil => .nil
  | .cons v tl => .cons (convert_booleans v) (convertListItems tl)
end

/-! ### Sub-manifest validation (`validate_manifest`) and the ldx fixing stage -/

/-- The version floor `APP_MANIFEST_VERSION` of the source. -/
def appManifestVersion : String := "0.5.1"

/-- Tail states of the regex `^(\d+\.?)+$`: digits and dots, no two consecutive
dots, optionally ending in a dot. -/
def numReTail : List Char → Bool
  | [] => true
  | c :: cs =>
    if c.isDigit then numReTail cs
    else if c = '.' then
      match cs with
      | [] => true
      | d :: _ => d.isDigit && numReTail cs
    else false

/-- Full match of the regex `^(\d+\.?)+$` used for names and versions. -/
def numRe : List Char → Bool
  | [] => false
  | c :: cs => c.isDigit && numReTail cs

/-- Decimal value of a digit run. -/
def digitsToNat (cs : List Char) : Nat :=
  cs.foldl (fun n c => n * 10 + (c.toNat - 48)) 0

/-- Strict version parse as done by `packaging.version`: dot-separated nonempty
digit runs; anything else (e.g. a trailing dot) is an invalid version. -/
def parseVer (s : String) : Option (List Nat) :=
  let parts := pySplitAll ['.'] s.toList
  if parts.all (fun p => !p.isEmpty && p.all Char.isDigit) then
    some (parts.map digitsToNat)
  else none

/-- Release-tuple comparison with zero padding: `verGe a b` iff `a ≥ b`. -/
def verGe : List Nat → List Nat → Bool
  | [], [] => true
  | [], y :: ys => y == 0 && verGe [] ys
  | _ :: _, [] => true
  | x :: xs, y :: ys => if y < x then true else if x < y then false else verGe xs ys

/-- The parsed version floor `>=0.5.1`. -/
def floorVer : List Nat := [0, 5, 1]

/-- Read a key as a string, falling back to a default when absent; a key
present with a non-string value makes the Python regex call raise. -/
def dGetStrOr (e : VDict) (k dflt : String) : Except String String :=
  match dGet e k with
  | none => .ok dflt
  | some (.vStr s) => .ok s
  | some _ => .error "TypeError"

/-- The good-manifest comprehension predicate of `validate_manifest`:
at least `MFT_MIN_LEN = 2` fields, a non-purely-numeric name, a
regex-numeric version, and a version accepted by the `>=0.5.1` specifier
(whose strict parse can itself raise). -/
def entryGood (e : VDict) : Except String Bool :=
  if dLen e < 2 then .ok false
  else
    match dGetStrOr e "name" "" with
    | .error err => .error err
    | .ok name =>
      if numRe name.toList then .ok false
      else
        match dGetStrOr e "version" "" with
        | .error err => .error err
        | .ok ver =>
          if numRe ver.toList then
            match parseVer ver with
            | some v => .ok (verGe v floorVer)
            | none => .error "InvalidVersion"
          else .ok false

/-- The bad-manifest comprehension predicate of `validate_manifest`: fewer than
2 fields, or a purely-numeric name — with the name defaulting to
`APP_MANIFEST_VERSION` (numeric!) when absent.  A below-floor version does not
appear here. -/
def entryBad (e : VDict) : Except String Bool :=
  if dLen e < 2 then .ok true
  else
    match dGetStrOr e "name" appManifestVersion with
    | .error err => .error err
    | .ok name => .ok (numRe name.toList)

/-- Effectful filter for the list comprehensions. -/
def filterME (f : VDict → Except String Bool) : List VDict → Except String (List VDict)
  | [] => .ok []
  | e :: tl =>
    match f e with
    | .error err => .error err
    | .ok b =>
      match filterME f tl with
      | .error err => .error err
      | .ok r => .ok (if b then e :: r else r)

/-- Effectful map for the bump loop. -/
def mapME (f : VDict → Except String VDict) : List VDict → Except String (List VDict)
  | [] => .ok []
  | e :: tl =>
    match f e with
    | .error err => .error err
    | .ok e' =>
      match mapME f tl with
      | .error err => .error err
      | .ok r => .ok (e' :: r)

/-- Model of `validate_manifest`: the good and bad comprehensions. -/
def validate_manifest (es : List VDict) : Except String (List VDict × List VDict) :=
  match filterME entryGood es with
  | .error err => .error err
  | .ok good =>
    match filterME entryBad es with
    | .error err => .error err
    | .ok bad => .ok (good, bad)

/-- The `DEFAULT_MANIFESTS` replacement list. -/
def defaultManifests : List VDict :=
  [.dcons "name" (.vStr "client") (.dcons "version" (.vStr appManifestVersion) .dnil),
   .dcons "name" (.vStr "ldx") (.dcons "version" (.vStr appManifestVersion) .dnil)]

/-- The bump step `if not spec.contains(mft.version): mft.version = "0.5.1"`:
a missing or unparseable version raises. -/
def bumpEntry (e : VDict) : Except String VDict :=
  match dGet e "version" with
  | some (.vStr v) =>
    match parseVer v with
    | some pv =>
      .ok (if verGe pv floorVer then e else dSet e "version" (.vStr appManifestVersion))
    | none => .error "InvalidVersion"
  | _ => .error "InvalidVersion"

/-- The manifests-fixing stage of `fix_manifest`: validate, then — only for
ldx-kind manifests — replace the whole list with the defaults when any entry is
bad, and bump every remaining below-floor version to the floor. -/
def fixManifestsStage (isLdx : Bool) (es : List VDict) : Except String (List VDict) :=
  match validate_manifest es with
  | .error err => .error err
  | .ok (_good, bad) =>
    let ms := if isLdx && !bad.isEmpty then defaultManifests else es
    if isLdx then mapME bumpEntry ms else .ok ms

instance {ε α : Type} [DecidableEq ε] [DecidableEq α] : DecidableEq (Except ε α) :=
  fun a b =>
    match a, b with
    | .ok x, .ok y =>
      if h : x = y then isTrue (by rw [h]) else isFalse (by simp [h])
    | .error e, .error f =>
      if h : e = f then isTrue (by rw [h]) else isFalse (by simp [h])
    | .ok _, .error _ => isFalse (by simp)
    | .error _, .ok _ => isFalse (by simp)

/-- The entry `{name: client, version: "0.3.0"}`. -/
def entry030 : VDict :=
  .dcons "name" (.vStr "client") (.dcons "version" (.vStr "0.3.0") .dnil)

/-- An entry with version `"0.3.0"` against the `"0.5.1"` floor is *not*
classified invalid by the bad-comprehension (which only checks field count and
numeric names), and for an ldx-kind manifest it does not trigger the full
replacement: its version is bumped to the floor in place instead. -/
theorem c3_counterexample :
    entryBad entry030 = .ok false ∧
    fixManifestsStage true [entry030] =
      .ok [.dcons "name" (.vStr "client") (.dcons "version" (.vStr "0.5.1") .dnil)] ∧
    .ok [.dcons "name" (.vStr "client") (.dcons "version" (.vStr "0.5.1") .dnil)] ≠
      (.ok defaultManifests :  Except String (List VDict)) := by
  refine ⟨by decide, by decide, by decide⟩

/-- C3 (amended): an entry is invalid iff it has fewer than 2 fields or a
purely-numeric (or missing) name; a below-floor version alone does not make it
invalid.  For an ldx-kind manifest, if any entry is invalid the whole list is
replaced by the two defaults `{client, 0.5.1}`, `{ldx, 0.5.1}`; otherwise every
entry whose version fails the floor — such as `{client, "0.3.0"}` — has its
version bumped to the floor without any replacement. -/
theorem c3_ldx_fix_behaviour :
    (∀ es good bad, validate_manifest es = .ok (good, bad) → bad ≠ [] →
      fixManifestsStage true es = .ok defaultManifests) ∧
    (∀ es good, validate_manifest es = .ok (good, []) →
      fixManifestsStage true es = mapME bumpEntry es) ∧
    validate_manifest [entry030] = .ok ([], []) := by
  refine ⟨fun es good bad hval hbad => ?_, fun es good hval => ?_, by decide⟩
  · unfold fixManifestsStage
    rw [hval]
    cases bad with
    | nil => exact absurd rfl hbad
    | cons b tl =>
      show mapME bumpEntry defaultManifests = .ok defaultManifests
      decide
  · unfold fixManifestsStage
    rw [hval]
    rfl

/-- Witness for `c3_ldx_fix_behaviour`: the singleton `{client, 0.3.0}` list is
bump-fixed, not replaced. -/
theorem c3_ldx_fix_behaviour_witness :
    fixManifestsStage true [entry030] = mapME bumpEntry [entry030] :=
  c3_ldx_fix_behaviour.2.1 [entry030] [] (by decide)

/-! ### Manifest text: token-level serialization

Modelled from the spec: the YAML read/write layer (`yamlify` /
`load_stream_structured` from the external toolbag package) is "a
structured-document read/write layer for the manifest format preserving
key-group ordering".  It is modelled as an injective token-level serializer
with a matching parser; byte-identity of output text corresponds to equality of
token lists. -/

inductive Tok where
  | str (s : String)
  | bool (b : Bool)
  | lbrak
  | rbrak
  | lbrace
  | rbrace
  | key (k : String)
deriving DecidableEq

mutual
/-- Serialize a value to tokens. -/
def serV : Val → List Tok
  | .vStr s => [.str s]
  | .vBool b => [.bool b]
  | .vList xs => Tok.lbrak :: serL xs ++ [Tok.rbrak]
  | .vDict d => Tok.lbrace :: serD d ++ [Tok.rbrace]
/-- Serialize list items. -/
def serL : VList → List Tok
  | .nil => []
  | .cons v tl => serV v ++ serL tl
/-- Serialize dict items. -/
def serD : VDict → List Tok
  | .dnil => []
  | .dcons k v tl => Tok.key k :: serV v ++ serD tl
end

mutual
/-- Fuel-driven token parser for one value. -/
def parseV : Nat → List Tok → Option (Val × List Tok)
  | 0, _ => none
  | _ + 1, Tok.str s :: ts => some (.vStr s, ts)
  | _ + 1, Tok.bool b :: ts => some (.vBool b, ts)
  | f + 1, Tok.lbrak :: ts =>
    match parseL f ts with
    | some (xs, ts') => some (.vList xs, ts')
    | none => none
  | f + 1, Tok.lbrace :: ts =>
    match parseD f ts with
    | some (d, ts') => some (.vDict d, ts')
    | none => none
  | _ + 1, _ => none
/-- Fuel-driven token parser for list items up to a closing bracket. -/
def parseL : Nat → List Tok → Option (VList × List Tok)
  | 0, _ => none
  | f + 1, ts =>
    if ts.head? = some Tok.rbrak then some (.nil, ts.tail)
    else
      match parseV f ts with
      | some (v, ts') =>
        match parseL f ts' with
        | some (xs, ts'') => some (.cons v xs, ts'')
        | none => none
      | none => none
/-- Fuel-driven token parser for dict items up to a closing brace. -/
def parseD : Nat → List Tok → Option (VDict × List Tok)
  | 0, _ => none
  | _ + 1, Tok.rbrace :: ts => some (.dnil, ts)
  | f + 1, Tok.key k :: ts =>
    match parseV f ts with
    | some (v, ts') =>
      match parseD f ts' with
      | some (d, ts'') => some (.dcons k v d, ts'')
      | none => none
    | none => none
  | _ + 1, _ => none
end

/-- Fuel-driven parser of a whole manifest document: a brace-less top-level
mapping running to the end of the input, as produced by concatenated
`yamlify` chunks. -/
def parseTop : Nat → List Tok → Option VDict
  | 0, _ => none
  | _ + 1, [] => some .dnil
  | f + 1, Tok.key k :: ts =>
    match parseV f ts with
    | some (v, ts') =>
      match parseTop f ts' with
      | some d => some (.dcons k v d)
      | none => none
    | none => none
  | _ + 1, _ => none

/-- Parse of a manifest text. -/
def parseManifestText (ts : List Tok) : Option VDict := parseTop (ts.length + 1) ts

theorem serV_len_pos (v : Val) : 1 ≤ (serV v).length := by
  cases v <;> simp [serV]

theorem serV_append_head_ne_rbrak (v : Val) (rest : List Tok) :
    ¬ (serV v ++ rest).head? = some Tok.rbrak := by
  cases v <;> simp [serV]

mutual
theorem parse_serV : ∀ (v : Val) (rest : List Tok) (f : Nat),
    (serV v).length ≤ f → parseV f (serV v ++ rest) = some (v, rest)
  | .vStr s, rest, f, h => by
    cases f with
    | zero => simp [serV] at h
    | succ g => simp [serV, parseV]
  | .vBool b, rest, f, h => by
    cases f with
    | zero => simp [serV] at h
    | succ g => simp [serV, parseV]
  | .vList xs, rest, f, h => by
    cases f with
    | zero => simp [serV] at h
    | succ g =>
      have hl : (serL xs).length + 1 ≤ g := by
        simp [serV] at h
        omega
      have hrec := parse_serL xs rest g hl
      show parseV (g + 1) ((Tok.lbrak :: serL xs ++ [Tok.rbrak]) ++ rest) =
        some (.vList xs, rest)
      have harr : (Tok.lbrak :: serL xs ++ [Tok.rbrak]) ++ rest =
          Tok.lbrak :: (serL xs ++ (Tok.rbrak :: rest)) := by
        simp
      rw [harr]
      simp only [parseV, hrec]
  | .vDict d, rest, f, h => by
    cases f with
    | zero => simp [serV] at h
    | succ g =>
      have hl : (serD d).length + 1 ≤ g := by
        simp [serV] at h
        omega
      have hrec := parse_serD d rest g hl
      show parseV (g + 1) ((Tok.lbrace :: serD d ++ [Tok.rbrace]) ++ rest) =
        some (.vDict d, rest)
      have harr : (Tok.lbrace :: serD d ++ [Tok.rbrace]) ++ rest =
          Tok.lbrace :: (serD d ++ (Tok.rbrace :: rest)) := by
        simp
      rw [harr]
      simp only [parseV, hrec]

theorem parse_serL : ∀ (xs : VList) (rest : List Tok) (f : Nat),
    (serL xs).length + 1 ≤ f →
    parseL f (serL xs ++ (Tok.rbrak :: rest)) = some (xs, rest)
  | .nil, rest, f, h => by
    cases f with
    | zero => omega
    | succ g => simp [serL, parseL]
  | .cons v tl, rest, f, h => by
    cases f with
    | zero => omega
    | succ g =>
      have hv : (serV v).length ≤ g := by
        simp [serL] at h
        omega
      have htl : (serL tl).length + 1 ≤ g := by
        have := serV_len_pos v
        simp [serL] at h
        omega
      have harr : (serV v ++ serL tl) ++ (Tok.rbrak :: rest) =
          serV v ++ (serL tl ++ (Tok.rbrak :: rest)) := by
        simp
      show parseL (g + 1) ((serV v ++ serL tl) ++ (Tok.rbrak :: rest)) =
        some (.cons v tl, rest)
      rw [harr]
      have hhead := serV_append_head_ne_rbrak v (serL tl ++ (Tok.rbrak :: rest))
      have hv' := parse_serV v (serL tl ++ (Tok.rbrak :: rest)) g hv
      have htl' := parse_serL tl rest g htl
      simp only [parseL, if_neg hhead, hv', htl']

theorem parse_serD : ∀ (d : VDict) (rest : List Tok) (f : Nat),
    (serD d).length + 1 ≤ f →
    parseD f (serD d ++ (Tok.rbrace :: rest)) = some (d, rest)
  | .dnil, rest, f, h => by
    cases f with
    | zero => omega
    | succ g => simp [serD, parseD]
  | .dcons k v tl, rest, f, h => by
    cases f with
    | zero => omega
    | succ g =>
      have hv : (serV v).length ≤ g := by
        simp [serD] at h
        omega
      have htl : (serD tl).length + 1 ≤ g := by
        have := serV_len_pos v
        simp [serD] at h
        omega
      have harr : (Tok.key k :: serV v ++ serD tl) ++ (Tok.rbrace :: rest) =
          Tok.key k :: (serV v ++ (serD tl ++ (Tok.rbrace :: rest))) := by
        simp
      show parseD (g + 1) ((Tok.key k :: serV v ++ serD tl) ++ (Tok.rbrace :: rest)) =
        some (.dcons k v tl, rest)
      rw [harr]
      have hv' := parse_serV v (serD tl ++ (Tok.rbrace :: rest)) g hv
      have htl' := parse_serD tl rest g htl
      simp only [parseD, hv', htl']
end

theorem parse_serTop : ∀ (d : VDict) (f : Nat),
    (serD d).length + 1 ≤ f → parseTop f (serD d) = some d
  | .dnil, f, h => by
    cases f with
    | zero => omega
    | succ g => simp [serD, parseTop]
  | .dcons k v tl, f, h => by
    cases f with
    | zero => omega
    | succ g =>
      have hv : (serV v).length ≤ g := by
        simp [serD] at h
        omega
      have htl : (serD tl).length + 1 ≤ g := by
        have := serV_len_pos v
        simp [serD] at h
        omega
      have harr : serD (VDict.dcons k v tl) = Tok.key k :: (serV v ++ serD tl) := by
        simp [serD]
      rw [harr]
      have hv' := parse_serV v (serD tl) g hv
      have htl' := parse_serTop tl g htl
      simp only [parseTop, hv', htl']

/-- Round trip: the parse of a serialized document is the document itself. -/
theorem parseManifestText_serD (d : VDict) : parseManifestText (serD d) = some d :=
  parse_serTop d ((serD d).length + 1) (le_refl _)

/-! ### Mapping lemmas -/

/-- Spine induction for `VDict` (no recursion into the values). -/
theorem vdictSpineInd {motive : VDict → Prop} (dnil : motive .dnil)
    (dcons : ∀ k v tl, motive tl → motive (.dcons k v tl)) : ∀ d, motive d
  | .dnil => dnil
  | .dcons k v tl => dcons k v tl (vdictSpineInd dnil dcons tl)

/-- Spine induction for `VList` (no recursion into the values). -/
theorem vlistSpineInd {motive : VList → Prop} (nil : motive .nil)
    (cons : ∀ v tl, motive tl → motive (.cons v tl)) : ∀ xs, motive xs
  | .nil => nil
  | .cons v tl => cons v tl (vlistSpineInd nil cons tl)

theorem dGet_dSet_self (m : VDict) (k : String) (v : Val) :
    dGet (dSet m k v) k = some v := by
  induction m using vdictSpineInd with
  | dnil => simp [dSet, dGet]
  | dcons k' v' tl ih =>
    by_cases h : k' = k
    · simp [dSet, dGet, h]
    · simp [dSet, dGet, h, ih]

theorem dGet_dSet_ne (m : VDict) (k k' : String) (v : Val) (h : k ≠ k') :
    dGet (dSet m k v) k' = dGet m k' := by
  induction m using vdictSpineInd with
  | dnil => simp [dSet, dGet, h]
  | dcons k₀ v₀ tl ih =>
    by_cases h₀ : k₀ = k
    · subst h₀
      simp [dSet, dGet, h, ih]
    · simp [dSet, dGet, h₀, ih]

theorem dSet_eq_of_get (m : VDict) (k : String) (v : Val) (h : dGet m k = some v) :
    dSet m k v = m := by
  induction m using vdictSpineInd with
  | dnil => simp [dGet] at h
  | dcons k₀ v₀ tl ih =>
    by_cases h₀ : k₀ = k
    · subst h₀
      simp [dGet] at h
      simp [dSet, h]
    · simp [dGet, h₀] at h
      simp [dSet, h₀, ih h]

theorem dGet_dDel_ne (m : VDict) (k k' : String) (h : k ≠ k') :
    dGet (dDel m k) k' = dGet m k' := by
  induction m using vdictSpineInd with
  | dnil => simp [dDel]
  | dcons k₀ v₀ tl ih =>
    by_cases h₀ : k₀ = k
    · subst h₀
      simp [dDel, dGet, h, ih]
    · simp [dDel, dGet, h₀, ih]

theorem dDel_of_absent (m : VDict) (k : String) (h : dHas m k = false) :
    dDel m k = m := by
  induction m using vdictSpineInd with
  | dnil => rfl
  | dcons k₀ v₀ tl ih =>
    unfold dHas at h ih
    by_cases h₀ : k₀ = k
    · subst h₀
      simp [dGet] at h
    · simp [dGet, h₀] at h
      simp [dDel, h₀, ih (by simp [dHas, h])]

theorem dHas_dSet_ne (m : VDict) (k k' : String) (v : Val) (h : k ≠ k') :
    dHas (dSet m k v) k' = dHas m k' := by
  unfold dHas
  rw [dGet_dSet_ne m k k' v h]

theorem dHas_dDel_ne (m : VDict) (k k' : String) (h : k ≠ k') :
    dHas (dDel m k) k' = dHas m k' := by
  unfold dHas
  rw [dGet_dDel_ne m k k' h]

theorem dGet_dApp_of_absent (a b : VDict) (k : String) (h : dHas a k = false) :
    dGet (dApp a b) k = dGet b k := by
  induction a using vdictSpineInd with
  | dnil => simp [dApp]
  | dcons k₀ v₀ tl ih =>
    unfold dHas at h ih
    by_cases h₀ : k₀ = k
    · subst h₀
      simp [dGet] at h
    · simp [dGet, h₀] at h
      simp [dApp, dGet, h₀, ih (by simp [dHas, h])]

theorem dSet_dApp_of_absent (a b : VDict) (k : String) (v : Val) (h : dHas a k = false) :
    dSet (dApp a b) k v = dApp a (dSet b k v) := by
  induction a using vdictSpineInd with
  | dnil => simp [dApp]
  | dcons k₀ v₀ tl ih =>
    unfold dHas at h ih
    by_cases h₀ : k₀ = k
    · subst h₀
      simp [dGet] at h
    · simp [dGet, h₀] at h
      simp [dApp, dSet, h₀, ih (by simp [dHas, h])]

theorem dHas_dExclude2_self (m : VDict) (k₁ k₂ : String) :
    dHas (dExclude2 m k₁ k₂) k₁ = false ∧ dHas (dExclude2 m k₁ k₂) k₂ = false := by
  induction m using vdictSpineInd with
  | dnil => simp [dExclude2, dHas, dGet]
  | dcons k₀ v₀ tl ih =>
    by_cases h₀ : k₀ = k₁ ∨ k₀ = k₂
    · simp [dExclude2, h₀, ih]
    · push_neg at h₀
      have hne₁ : ¬ k₀ = k₁ := h₀.1
      have hne₂ : ¬ k₀ = k₂ := h₀.2
      constructor
      · show (dGet (dExclude2 (VDict.dcons k₀ v₀ tl) k₁ k₂) k₁).isSome = false
        simp [dExclude2, hne₁, hne₂, dGet]
        cases hg : dGet (dExclude2 tl k₁ k₂) k₁ with
        | none => rfl
        | some v => have := ih.1; simp [dHas, hg] at this
      · show (dGet (dExclude2 (VDict.dcons k₀ v₀ tl) k₁ k₂) k₂).isSome = false
        simp [dExclude2, hne₁, hne₂, dGet]
        cases hg : dGet (dExclude2 tl k₁ k₂) k₂ with
        | none => rfl
        | some v => have := ih.2; simp [dHas, hg] at this

theorem dExclude2_of_absent (m : VDict) (k₁ k₂ : String)
    (h₁ : dHas m k₁ = false) (h₂ : dHas m k₂ = false) :
    dExclude2 m k₁ k₂ = m := by
  induction m using vdictSpineInd with
  | dnil => rfl
  | dcons k₀ v₀ tl ih =>
    unfold dHas at h₁ h₂ ih
    by_cases hk₁ : k₀ = k₁
    · subst hk₁
      simp [dGet] at h₁
    · by_cases hk₂ : k₀ = k₂
      · subst hk₂
        simp [dGet] at h₂
      · simp [dGet, hk₁] at h₁
        simp [dGet, hk₂] at h₂
        simp [dExclude2, hk₁, hk₂, ih (by simp [dHas, h₁]) (by simp [dHas, h₂])]

theorem dExclude2_dApp (a b : VDict) (k₁ k₂ : String) :
    dExclude2 (dApp a b) k₁ k₂ = dApp (dExclude2 a k₁ k₂) (dExclude2 b k₁ k₂) := by
  induction a using vdictSpineInd with
  | dnil => simp [dApp, dExclude2]
  | dcons k₀ v₀ tl ih =>
    by_cases h₀ : k₀ = k₁ ∨ k₀ = k₂
    · simp [dApp, dExclude2, h₀, ih]
    · simp [dApp, dExclude2, h₀, ih]

theorem dGet_dDel_self (m : VDict) (k : String) : dGet (dDel m k) k = none := by
  induction m using vdictSpineInd with
  | dnil => rfl
  | dcons k₀ v₀ tl ih =>
    by_cases h₀ : k₀ = k
    · simp [dDel, h₀, ih]
    · simp [dDel, dGet, h₀, ih]

theorem dHas_dDel_self (m : VDict) (k : String) : dHas (dDel m k) k = false := by
  simp [dHas, dGet_dDel_self]

theorem dHas_dSet_self (m : VDict) (k : String) (v : Val) :
    dHas (dSet m k v) k = true := by
  simp [dHas, dGet_dSet_self]

theorem dApp_dnil (a : VDict) : dApp a .dnil = a := by
  induction a using vdictSpineInd with
  | dnil => rfl
  | dcons k v tl ih => simp [dApp, ih]

theorem dGet_dApp_of_present (a b : VDict) (k : String) (h : dHas a k = true) :
    dGet (dApp a b) k = dGet a k := by
  induction a using vdictSpineInd with
  | dnil => simp [dHas, dGet] at h
  | dcons k₀ v₀ tl ih =>
    by_cases h₀ : k₀ = k
    · simp [dApp, dGet, h₀]
    · unfold dHas at h ih
      simp [dGet, h₀] at h
      simp [dApp, dGet, h₀]
      exact ih h

theorem dGet_dExclude2_ne (m : VDict) (k₁ k₂ k : String) (h₁ : k ≠ k₁) (h₂ : k ≠ k₂) :
    dGet (dExclude2 m k₁ k₂) k = dGet m k := by
  induction m using vdictSpineInd with
  | dnil => rfl
  | dcons k₀ v₀ tl ih =>
    by_cases h₀ : k₀ = k₁ ∨ k₀ = k₂
    · have hne : ¬ k₀ = k := by
        rcases h₀ with h | h <;> subst h
        · exact fun hc => h₁ hc.symm
        · exact fun hc => h₂ hc.symm
      simp [dExclude2, h₀, dGet, hne, ih]
    · simp [dExclude2, h₀, dGet, ih]

theorem dLen_dSet_of_has (m : VDict) (k : String) (v : Val) (h : dHas m k = true) :
    dLen (dSet m k v) = dLen m := by
  induction m using vdictSpineInd with
  | dnil => simp [dHas, dGet] at h
  | dcons k₀ v₀ tl ih =>
    by_cases h₀ : k₀ = k
    · simp [dSet, h₀, dLen]
    · unfold dHas at h ih
      simp [dGet, h₀] at h
      simp [dSet, h₀, dLen]
      exact ih h

/-! ### Conversion lemmas -/

theorem tryBool_of_not_boolish (s : String)
    (h₁ : ¬ lowerStr s = "true") (h₂ : ¬ lowerStr s = "false") :
    tryBool s = .vStr s := by
  simp [tryBool, h₁, h₂]

mutual
theorem convert_booleans_idem : (v : Val) → convert_booleans (convert_booleans v) = convert_booleans v
  | .vStr s => rfl
  | .vBool b => rfl
  | .vList xs => rfl
  | .vDict d => by
    simp [convert_booleans, convertDictItems_idem d]
theorem convertDictItems_idem : (d : VDict) → convertDictItems (convertDictItems d) = convertDictItems d
  | .dnil => rfl
  | .dcons k v tl => by
    simp [convertDictItems, convertDictValue_idem v, convertDictItems_idem tl]
theorem convertDictValue_idem : (v : Val) → convertDictValue (convertDictValue v) = convertDictValue v
  | .vStr s => by
    by_cases h₁ : lowerStr s = "true"
    · simp [convertDictValue, tryBool, h₁]
    · by_cases h₂ : lowerStr s = "false"
      · simp [convertDictValue, tryBool, h₁, h₂]
      · simp [convertDictValue, tryBool, h₁, h₂]
  | .vBool b => rfl
  | .vList xs => by
    simp [convertDictValue, convertListItems_idem xs]
  | .vDict d => by
    simp [convertDictValue, convertDictItems_idem d]
theorem convertListItems_idem : (xs : VList) → convertListItems (convertListItems xs) = convertListItems xs
  | .nil => rfl
  | .cons v tl => by
    simp [convertListItems, convert_booleans_idem v, convertListItems_idem tl]
end

theorem dGet_conv (m : VDict) (k : String) :
    dGet (convertDictItems m) k = (dGet m k).map convertDictValue := by
  induction m using vdictSpineInd with
  | dnil => simp [convertDictItems, dGet]
  | dcons k₀ v₀ tl ih =>
    by_cases h₀ : k₀ = k
    · simp [convertDictItems, dGet, h₀]
    · simp [convertDictItems, dGet, h₀, ih]

theorem dHas_conv (m : VDict) (k : String) :
    dHas (convertDictItems m) k = dHas m k := by
  unfold dHas
  rw [dGet_conv]
  cases dGet m k <;> simp

theorem conv_dSet (m : VDict) (k : String) (v : Val) :
    convertDictItems (dSet m k v) = dSet (convertDictItems m) k (convertDictValue v) := by
  induction m using vdictSpineInd with
  | dnil => simp [dSet, convertDictItems]
  | dcons k₀ v₀ tl ih =>
    by_cases h₀ : k₀ = k
    · simp [dSet, convertDictItems, h₀]
    · simp [dSet, convertDictItems, h₀, ih]

theorem conv_dnil_iff (m : VDict) : convertDictItems m = .dnil ↔ m = .dnil := by
  cases m <;> simp [convertDictItems]

theorem convL_nil_iff (xs : VList) : convertListItems xs = .nil ↔ xs = .nil := by
  cases xs <;> simp [convertListItems]

theorem dExclude2_conv (m : VDict) (k₁ k₂ : String) :
    dExclude2 (convertDictItems m) k₁ k₂ = convertDictItems (dExclude2 m k₁ k₂) := by
  induction m using vdictSpineInd with
  | dnil => simp [convertDictItems, dExclude2]
  | dcons k₀ v₀ tl ih =>
    by_cases h₀ : k₀ = k₁ ∨ k₀ = k₂
    · simp [convertDictItems, dExclude2, h₀, ih]
    · simp [convertDictItems, dExclude2, h₀, ih]

/-! ### `fix_manifest`: the manifest-normalization pipeline -/

/-- A manifest is ldx-kind unless its path contains the substring `"assets"`. -/
def isLdxFile (file : String) : Bool := ! hasStr file "assets"

/-- `pathlib.Path(file).stem`: the final path component with its last
extension removed (a leading or trailing dot does not count as an extension
separator). -/
def pyStem (file : String) : String :=
  let name := (file.toList.reverse.takeWhile (fun c => c ≠ '/')).reverse
  let revName := name.reverse
  let after := revName.takeWhile (fun c => c ≠ '.')
  if after.length = revName.length ∨ after.length = 0 then String.mk name
  else
    let i := name.length - after.length - 1
    if i = 0 then String.mk name else String.mk (name.take i)

/-- The short-name computation `stem.split("--", 4)` then `parts[1] + parts[2]`;
fewer than three parts raises an IndexError. -/
def shortNameOf (file : String) : Except String String :=
  match pySplit dashes 4 (pyStem file).toList with
  | _ :: p1 :: p2 :: _ => .ok (String.mk p1 ++ String.mk p2)
  | _ => .error "IndexError"

/-- Python truthiness of a manifest value. -/
def truthyVal : Val → Bool
  | .vStr s => !(s == "")
  | .vBool b => b
  | .vList xs => !(xs == .nil)
  | .vDict d => !(d == .dnil)

/-- Python truthiness of an optional lookup result (`None` is falsy). -/
def truthyOpt : Option Val → Bool
  | none => false
  | some v => truthyVal v

/-- `data.get("metadata", Mash())`: an absent metadata defaults to an empty
mapping; a present non-mapping metadata makes the subsequent
`del metadata["compatibility"]` raise. -/
def metaOf : Option Val → Except String VDict
  | none => .ok .dnil
  | some (.vDict m) => .ok m
  | some _ => .error "TypeError"

/-- Convert the manifests value to a list of entry mappings; iterating
non-mapping entries makes the validation comprehensions raise. -/
def entriesOfList : List Val → Except String (List VDict)
  | [] => .ok []
  | .vDict e :: tl =>
    match entriesOfList tl with
    | .error err => .error err
    | .ok r => .ok (e :: r)
  | _ :: _ => .error "TypeError"

/-- The manifests value as entry mappings. -/
def entriesOf : Val → Except String (List VDict)
  | .vList xs => entriesOfList xs.toList
  | _ => .error "TypeError"

/-- Rebuild the manifests value from entry mappings. -/
def entriesVal (es : List VDict) : Val := .vList (VList.ofList (es.map Val.vDict))

/-- One tier of the deprecated `database_reset` removal in
`process_ldx_features`: `data.get("ldx", {}).get(tier, {}).get("database_reset")`
followed by an in-place delete; attribute access on a present non-mapping
raises. -/
def delResetTier (d : VDict) (tier : String) : Except String VDict :=
  match dGet d "ldx" with
  | none => .ok d
  | some (.vDict l) =>
    match dGet l tier with
    | none => .ok d
    | some (.vDict t) =>
      if dHas t "database_reset" then
        .ok (dSet d "ldx" (.vDict (dSet l tier (.vDict (dDel t "database_reset")))))
      else .ok d
    | some _ => .error "AttributeError"
  | some _ => .error "AttributeError"

/-- The default `features` block installed by `process_ldx_features`. -/
def featuresDefault : Val :=
  .vDict (.dcons "is_deployment" (.vBool false)
    (.dcons "reset"
      (.vDict (.dcons "enabled" (.vBool false)
        (.dcons "edge" (.vBool false)
          (.dcons "studio" (.vBool false)
            (.dcons "version" (.vStr "\x7bldx.version\x7d") .dnil)))))
      .dnil))

/-- Model of `process_ldx_features`: strip `database_reset` under the
`edge`/`studio` tiers, then install the default `features` block when `ldx` is
a truthy mapping without one.  (A present non-mapping `ldx` already raised in
the tier loop.) -/
def process_ldx_features (d : VDict) : Except String VDict :=
  match delResetTier d "edge" with
  | .error e => .error e
  | .ok d1 =>
    match delResetTier d1 "studio" with
    | .error e => .error e
    | .ok d2 =>
      match dGet d2 "ldx" with
      | some (.vDict l) =>
        if truthyVal (.vDict l) && ! dHas l "features" then
          .ok (dSet d2 "ldx" (.vDict (dSet l "features" featuresDefault)))
        else .ok d2
      | _ => .ok d2

/-- `DEFAULT_DEPLOYMENT_TEMPLATES` from the source. -/
def defaultDeploymentTemplates : VList :=
  VList.ofList (["ldx-namespaces", "ldx-applicationset", "ldx-helm", "ldx-values",
    "ldx-sinks", "ldx-postgres-hack", "ldx-database-admin", "client-baccarat",
    "client-fablackjack", "client-roulettes"].map Val.vStr)

/-- The default `metadata.deployment` block keyed by the manifest short name. -/
def defaultDeployment (shortName : String) : Val :=
  .vDict (.dcons "application_name" (.vStr ("live-dealer-" ++ shortName))
    (.dcons "deployment_templates" (.vList defaultDeploymentTemplates)
      (.dcons "project_name" (.vStr "live-dealer") .dnil)))

/-- Model of `process_deployment_templates`: when
`metadata.deployment.deployment_templates` is truthy it must be a list (else a
fatal `ValueError`); the deduplicated sorted union with the extra templates is
computed but never persisted, so a successful check changes nothing. -/
def process_deployment_templates (md : VDict) : Except String Unit :=
  match dGet md "deployment" with
  | none => .ok ()
  | some (.vDict dep) =>
    match dGet dep "deployment_templates" with
    | none => .ok ()
    | some v =>
      if truthyVal v then
        match v with
        | .vList _ => .ok ()
        | _ => .error "deployment_templates is not a list"
      else .ok ()
  | some _ => .error "AttributeError"

/-- The two fixed audit-note lines set on `metadata.notes`. -/
def notesVal : Val :=
  .vList (.cons
    (.vStr "\"updated:\" only interpreted by humans or used to trigger a deployment run")
    (.cons (.vStr "date -Iseconds | tr -d '\\n' | pbcopy") .nil))

/-- Model of the in-memory part of `fix_manifest` (steps 1-9 of the spec):
default the manifests list, validate and fix it, normalize metadata
(compatibility removal, ldx features, deployment default and template check,
notes, version stamp, deployment_sources removal), and produce the serialized
key order: converted non-special keys, then the unconverted manifests list,
then the converted metadata. -/
def fix_manifest_data (file version : String) (d : VDict) : Except String VDict :=
  let isLdx := isLdxFile file
  let ms0 : Val := (dGet d "manifests").getD (entriesVal defaultManifests)
  let d1 := dSet d "manifests" ms0
  match entriesOf ms0 with
  | .error e => .error e
  | .ok entries =>
    match fixManifestsStage isLdx entries with
    | .error e => .error e
    | .ok entries2 =>
      let d2 := dSet d1 "manifests" (entriesVal entries2)
      match metaOf (dGet d2 "metadata") with
      | .error e => .error e
      | .ok md0 =>
        let md1 := dDel md0 "compatibility"
        match shortNameOf file with
        | .error e => .error e
        | .ok sn =>
          match (if isLdx then process_ldx_features d2 else .ok d2) with
          | .error e => .error e
          | .ok d3 =>
            let md2 :=
              if isLdx then
                dSet md1 "deployment" ((dGet md1 "deployment").getD (defaultDeployment sn))
              else md1
            match (if isLdx then process_deployment_templates md2 else .ok ()) with
            | .error e => .error e
            | .ok _ =>
              let md3 := dSet md2 "notes" notesVal
              let md4 := dSet md3 "version" (.vStr version)
              let md5 :=
                if truthyOpt (dGet md4 "deployment_sources") then
                  dDel md4 "deployment_sources"
                else md4
              let d4 := dSet d3 "metadata" (.vDict md5)
              let unspecial := dExclude2 d4 "metadata" "manifests"
              .ok (dApp (convertDictItems unspecial)
                (.dcons "manifests" (entriesVal entries2)
                  (.dcons "metadata" (.vDict (convertDictItems md5)) .dnil)))

/-- The text-level manifest fixer: parse the file text, fix the document, and
serialize it back (the write/stage/commit step is modelled separately). -/
def fix_manifest_text (file version : String) (ts : List Tok) : Option (List Tok) :=
  match parseManifestText ts with
  | none => none
  | some d =>
    match fix_manifest_data file version d with
    | .ok d' => some (serD d')
    | .error _ => none

/-! ### Fixpoint of the manifests-fixing stage -/

theorem filterME_nil_forall {f : VDict → Except String Bool} :
    ∀ {es : List VDict}, filterME f es = .ok [] → ∀ e ∈ es, f e = .ok false := by
  intro es
  induction es with
  | nil => intro _ e he; simp at he
  | cons a tl ih =>
    intro h e he
    unfold filterME at h
    cases hf : f a with
    | error err => rw [hf] at h; simp at h
    | ok b =>
      rw [hf] at h
      cases hr : filterME f tl with
      | error err => rw [hr] at h; simp at h
      | ok r =>
        rw [hr] at h
        simp at h
        cases b with
        | true => simp at h
        | false =>
          simp at h
          subst h
          rcases List.mem_cons.mp he with he | he
          · subst he; exact hf
          · exact ih hr e he

theorem filterME_of_forall_false {f : VDict → Except String Bool} :
    ∀ {es : List VDict}, (∀ e ∈ es, f e = .ok false) → filterME f es = .ok [] := by
  intro es
  induction es with
  | nil => intro _; rfl
  | cons a tl ih =>
    intro h
    unfold filterME
    rw [h a (List.mem_cons_self a tl), ih (fun e he => h e (List.mem_cons_of_mem a he))]
    rfl

theorem filterME_ok_exists {f : VDict → Except String Bool} :
    ∀ {es : List VDict}, (∀ e ∈ es, ∃ b, f e = .ok b) →
      ∃ r, filterME f es = .ok r := by
  intro es
  induction es with
  | nil => intro _; exact ⟨[], rfl⟩
  | cons a tl ih =>
    intro h
    obtain ⟨b, hb⟩ := h a (List.mem_cons_self a tl)
    obtain ⟨r, hr⟩ := ih (fun e he => h e (List.mem_cons_of_mem a he))
    exact ⟨if b then a :: r else r, by unfold filterME; rw [hb, hr]⟩

theorem mapME_forall₂ {f : VDict → Except String VDict} :
    ∀ {es es' : List VDict}, mapME f es = .ok es' →
      List.Forall₂ (fun e e' => f e = .ok e') es es' := by
  intro es
  induction es with
  | nil =>
    intro es' h
    unfold mapME at h
    simp at h
    subst h
    exact List.Forall₂.nil
  | cons a tl ih =>
    intro es' h
    unfold mapME at h
    cases hf : f a with
    | error err => rw [hf] at h; simp at h
    | ok a' =>
      rw [hf] at h
      cases hr : mapME f tl with
      | error err => rw [hr] at h; simp at h
      | ok r =>
        rw [hr] at h
        simp at h
        subst h
        exact List.Forall₂.cons hf (ih hr)

theorem mapME_of_forall_id {f : VDict → Except String VDict} :
    ∀ {es : List VDict}, (∀ e ∈ es, f e = .ok e) → mapME f es = .ok es := by
  intro es
  induction es with
  | nil => intro _; rfl
  | cons a tl ih =>
    intro h
    unfold mapME
    rw [h a (List.mem_cons_self a tl), ih (fun e he => h e (List.mem_cons_of_mem a he))]

theorem bumpEntry_shape (e e' : VDict) (h : bumpEntry e = .ok e') :
    ∃ v pv, dGet e "version" = some (.vStr v) ∧ parseVer v = some pv ∧
      ((verGe pv floorVer = true ∧ e' = e) ∨
        (verGe pv floorVer = false ∧ e' = dSet e "version" (.vStr appManifestVersion))) := by
  unfold bumpEntry at h
  cases hg : dGet e "version" with
  | none => rw [hg] at h; simp at h
  | some v₀ =>
    rw [hg] at h
    cases v₀ with
    | vStr v =>
      dsimp only at h
      cases hp : parseVer v with
      | none => rw [hp] at h; simp at h
      | some pv =>
        rw [hp] at h
        simp at h
        by_cases hge : verGe pv floorVer = true
        · rw [if_pos hge] at h
          exact ⟨v, pv, rfl, hp, Or.inl ⟨hge, h.symm⟩⟩
        · rw [if_neg hge] at h
          exact ⟨v, pv, rfl, hp, Or.inr ⟨by simpa using hge, h.symm⟩⟩
    | vBool b => simp at h
    | vList xs => simp at h
    | vDict m => simp at h

theorem bumpEntry_preserves (e e' : VDict) (h : bumpEntry e = .ok e') :
    dGet e' "name" = dGet e "name" ∧ dLen e' = dLen e ∧
      ∃ v' pv', dGet e' "version" = some (.vStr v') ∧ parseVer v' = some pv' ∧
        verGe pv' floorVer = true := by
  obtain ⟨v, pv, hg, hp, hc⟩ := bumpEntry_shape e e' h
  rcases hc with ⟨hge, he⟩ | ⟨hge, he⟩
  · subst he
    exact ⟨rfl, rfl, v, pv, hg, hp, hge⟩
  · subst he
    refine ⟨dGet_dSet_ne e "version" "name" _ (by decide), ?_, ?_⟩
    · exact dLen_dSet_of_has e "version" _ (by simp [dHas, hg])
    · exact ⟨appManifestVersion, [0, 5, 1], dGet_dSet_self e "version" _, by decide, by decide⟩

theorem bumpEntry_fix (e e' : VDict) (h : bumpEntry e = .ok e') :
    bumpEntry e' = .ok e' := by
  obtain ⟨_, _, v', pv', hg', hp', hge'⟩ := bumpEntry_preserves e e' h
  unfold bumpEntry
  rw [hg']
  dsimp only
  rw [hp']
  dsimp only
  rw [if_pos hge']

theorem entryBad_false_imp (e : VDict) (h : entryBad e = .ok false) :
    ¬ dLen e < 2 ∧ ∃ nm, dGet e "name" = some (.vStr nm) ∧ numRe nm.toList = false := by
  unfold entryBad at h
  by_cases hl : dLen e < 2
  · rw [if_pos hl] at h; simp at h
  · rw [if_neg hl] at h
    unfold dGetStrOr at h
    cases hg : dGet e "name" with
    | none =>
      rw [hg] at h
      simp at h
      exact absurd h (by decide)
    | some v₀ =>
      rw [hg] at h
      cases v₀ with
      | vStr nm => simp at h; exact ⟨hl, nm, rfl, h⟩
      | vBool b => simp at h
      | vList xs => simp at h
      | vDict m => simp at h

theorem entryBad_after_bump (e e' : VDict) (hb : bumpEntry e = .ok e')
    (h : entryBad e = .ok false) : entryBad e' = .ok false := by
  obtain ⟨hname, hlen, _⟩ := bumpEntry_preserves e e' hb
  unfold entryBad dGetStrOr at h ⊢
  rw [hlen, hname]
  exact h

theorem entryGood_ok_after_bump (e e' : VDict) (hb : bumpEntry e = .ok e')
    (hbad : entryBad e = .ok false) : ∃ b, entryGood e' = .ok b := by
  obtain ⟨hname, hlen, v', pv', hv', hp', _⟩ := bumpEntry_preserves e e' hb
  obtain ⟨hl, nm, hnm, hnum⟩ := entryBad_false_imp e hbad
  unfold entryGood dGetStrOr
  rw [if_neg (by rw [hlen]; exact hl), hname, hnm]
  simp only [hnum]
  rw [hv']
  simp only
  by_cases hn : numRe v'.toList = true
  · simp only [hn, hp', if_true]
    exact ⟨_, rfl⟩
  · simp only [Bool.not_eq_true] at hn
    simp only [hn, Bool.false_eq_true, if_false]
    exact ⟨false, rfl⟩

theorem forall₂_bump_props : ∀ {es es' : List VDict},
    List.Forall₂ (fun e e' => bumpEntry e = .ok e') es es' →
    (∀ e ∈ es, entryBad e = .ok false) →
    ∀ e' ∈ es', (∃ b, entryGood e' = .ok b) ∧
      entryBad e' = .ok false ∧ bumpEntry e' = .ok e' := by
  intro es
  induction es with
  | nil =>
    intro es' hf _ e' he'
    cases hf
    simp at he'
  | cons a tl ih =>
    intro es' hf hbad
    cases hf with
    | cons hab htl =>
      rename_i b bs
      intro e' he'
      rcases List.mem_cons.mp he' with he' | he'
      · subst he'
        have hbadA : entryBad a = .ok false := hbad a (List.mem_cons_self a tl)
        exact ⟨entryGood_ok_after_bump a e' hab hbadA,
          entryBad_after_bump a e' hab hbadA, bumpEntry_fix a e' hab⟩
      · exact ih htl (fun e he => hbad e (List.mem_cons_of_mem a he)) e' he'

/-- The manifests-fixing stage is a fixpoint on its own output. -/
theorem fixManifestsStage_fixpoint (isLdx : Bool) (es es' : List VDict)
    (h : fixManifestsStage isLdx es = .ok es') :
    fixManifestsStage isLdx es' = .ok es' := by
  unfold fixManifestsStage at h
  cases hval : validate_manifest es with
  | error err => rw [hval] at h; simp at h
  | ok p =>
    obtain ⟨good, bad⟩ := p
    rw [hval] at h
    cases isLdx with
    | false =>
      simp at h
      subst h
      unfold fixManifestsStage
      rw [hval]
      simp
    | true =>
      cases bad with
      | cons b btl =>
        simp at h
        have hdef : mapME bumpEntry defaultManifests = .ok defaultManifests := by decide
        rw [hdef] at h
        simp at h
        subst h
        decide
      | nil =>
        simp at h
        have hgoods : filterME entryGood es = .ok good ∧ filterME entryBad es = .ok [] := by
          unfold validate_manifest at hval
          cases hg : filterME entryGood es with
          | error err => rw [hg] at hval; simp at hval
          | ok g =>
            rw [hg] at hval
            cases hb : filterME entryBad es with
            | error err => rw [hb] at hval; simp at hval
            | ok bd =>
              rw [hb] at hval
              simp at hval
              exact ⟨by rw [hval.1], by rw [hval.2]⟩
        have hbadf : ∀ e ∈ es, entryBad e = .ok false :=
          filterME_nil_forall hgoods.2
        have hf₂ := mapME_forall₂ h
        have hall := forall₂_bump_props hf₂ hbadf
        obtain ⟨g', hg'⟩ := filterME_ok_exists (fun e' he' => (hall e' he').1)
        have hb' : filterME entryBad es' = .ok [] :=
          filterME_of_forall_false (fun e' he' => (hall e' he').2.1)
        have hm' : mapME bumpEntry es' = .ok es' :=
          mapME_of_forall_id (fun e' he' => (hall e' he').2.2)
        unfold fixManifestsStage validate_manifest
        rw [hg', hb']
        simp [hm']

/-! ### Shape and invariants of `fix_manifest` output -/

/-- The serialized shape of every `fix_manifest` output: converted non-special
keys, then the manifests list, then the converted metadata. -/
def fixedForm (U md : VDict) (es : List VDict) : VDict :=
  dApp (convertDictItems U)
    (.dcons "manifests" (entriesVal es)
      (.dcons "metadata" (.vDict (convertDictItems md)) .dnil))

/-- A tier mapping carries no `database_reset` key (and is a mapping). -/
def tierClean (lm : VDict) (tier : String) : Prop :=
  ∀ t, dGet lm tier = some t → ∃ tm, t = .vDict tm ∧ dHas tm "database_reset" = false

/-- The `ldx` value after `process_ldx_features`: a mapping which, when truthy,
has a `features` key, with clean `edge`/`studio` tiers. -/
def ldxOk (l : Val) : Prop :=
  ∃ lm, l = .vDict lm ∧ (truthyVal (.vDict lm) = true → dHas lm "features" = true) ∧
    tierClean lm "edge" ∧ tierClean lm "studio"

/-- A deployment block whose `deployment_templates`, if truthy, is a list. -/
def dtOk (dep : VDict) : Prop :=
  ∀ t, dGet dep "deployment_templates" = some t → truthyVal t = false ∨ ∃ l, t = .vList l

/-- The metadata invariants established by a successful `fix_manifest` run. -/
def mdOk (version : String) (isLdx : Bool) (md : VDict) : Prop :=
  dHas md "compatibility" = false ∧
  dGet md "notes" = some notesVal ∧
  dGet md "version" = some (.vStr version) ∧
  (∀ v, dGet md "deployment_sources" = some v → truthyVal v = false) ∧
  (isLdx = true → ∃ dep, dGet md "deployment" = some (.vDict dep) ∧ dtOk dep)

/-- The non-special-keys invariants established by a successful run. -/
def uOk (isLdx : Bool) (U : VDict) : Prop :=
  dHas U "manifests" = false ∧ dHas U "metadata" = false ∧
  (isLdx = true → ∀ l, dGet U "ldx" = some l → ldxOk l)

/-! ### Conversion preserves the invariants -/

theorem truthy_conv_false (v : Val) (h : truthyVal v = false) :
    truthyVal (convertDictValue v) = false := by
  cases v with
  | vStr s =>
    simp [truthyVal] at h
    subst h
    decide
  | vBool b => exact h
  | vList xs =>
    simp [truthyVal] at h
    subst h
    decide
  | vDict m =>
    simp [truthyVal] at h
    subst h
    decide

theorem ldxOk_conv (l : Val) (h : ldxOk l) : ldxOk (convertDictValue l) := by
  obtain ⟨lm, hl, hf, he, hs⟩ := h
  subst hl
  refine ⟨convertDictItems lm, rfl, ?_, ?_, ?_⟩
  · intro ht
    rw [dHas_conv]
    apply hf
    simp only [truthyVal] at ht ⊢
    simp at ht ⊢
    intro hc
    rw [hc] at ht
    simp [conv_dnil_iff] at ht
  · intro t ht
    rw [dGet_conv] at ht
    cases hg : dGet lm "edge" with
    | none => rw [hg] at ht; simp at ht
    | some t₀ =>
      rw [hg] at ht
      simp at ht
      obtain ⟨tm, htm, hdr⟩ := he t₀ hg
      subst htm
      exact ⟨convertDictItems tm, by rw [← ht]; rfl, by rw [dHas_conv]; exact hdr⟩
  · intro t ht
    rw [dGet_conv] at ht
    cases hg : dGet lm "studio" with
    | none => rw [hg] at ht; simp at ht
    | some t₀ =>
      rw [hg] at ht
      simp at ht
      obtain ⟨tm, htm, hdr⟩ := hs t₀ hg
      subst htm
      exact ⟨convertDictItems tm, by rw [← ht]; rfl, by rw [dHas_conv]; exact hdr⟩

theorem dtOk_conv (dep : VDict) (h : dtOk dep) : dtOk (convertDictItems dep) := by
  intro t ht
  rw [dGet_conv] at ht
  cases hg : dGet dep "deployment_templates" with
  | none => rw [hg] at ht; simp at ht
  | some t₀ =>
    rw [hg] at ht
    simp at ht
    rcases h t₀ hg with hfalse | ⟨l, hl⟩
    · exact Or.inl (by rw [← ht]; exact truthy_conv_false t₀ hfalse)
    · subst hl
      exact Or.inr ⟨convertListItems l, by rw [← ht]; rfl⟩

/-! ### `process_ldx_features` lemmas -/

theorem delResetTier_post (d d' : VDict) (tier : String)
    (h : delResetTier d tier = .ok d') :
    ∀ l, dGet d' "ldx" = some l → ∃ lm, l = .vDict lm ∧ tierClean lm tier := by
  unfold delResetTier at h
  cases hld : dGet d "ldx" with
  | none =>
    rw [hld] at h
    simp at h
    subst h
    intro l hl
    rw [hld] at hl
    simp at hl
  | some l₀ =>
    rw [hld] at h
    cases l₀ with
    | vDict lm =>
      dsimp only at h
      cases hgt : dGet lm tier with
      | none =>
        rw [hgt] at h
        simp at h
        subst h
        intro l hl
        rw [hld] at hl
        simp at hl
        subst hl
        exact ⟨lm, rfl, fun t ht => by rw [hgt] at ht; simp at ht⟩
      | some t₀ =>
        rw [hgt] at h
        cases t₀ with
        | vDict tm =>
          dsimp only at h
          by_cases hdr : dHas tm "database_reset" = true
          · rw [if_pos hdr] at h
            simp at h
            subst h
            intro l hl
            rw [dGet_dSet_self] at hl
            simp at hl
            subst hl
            refine ⟨_, rfl, fun t ht => ?_⟩
            rw [dGet_dSet_self] at ht
            simp at ht
            subst ht
            exact ⟨_, rfl, dHas_dDel_self tm "database_reset"⟩
          · rw [if_neg hdr] at h
            simp at h
            subst h
            intro l hl
            rw [hld] at hl
            simp at hl
            subst hl
            refine ⟨lm, rfl, fun t ht => ?_⟩
            rw [hgt] at ht
            simp at ht
            subst ht
            exact ⟨tm, rfl, by simpa using hdr⟩
        | vStr s => simp at h
        | vBool b => simp at h
        | vList xs => simp at h
    | vStr s => simp at h
    | vBool b => simp at h
    | vList xs => simp at h

theorem delResetTier_preserves (d d' : VDict) (tier tier' : String) (hne : tier ≠ tier')
    (h : delResetTier d tier = .ok d')
    (hpre : ∀ l, dGet d "ldx" = some l → ∃ lm, l = .vDict lm ∧ tierClean lm tier') :
    ∀ l, dGet d' "ldx" = some l → ∃ lm, l = .vDict lm ∧ tierClean lm tier' := by
  unfold delResetTier at h
  cases hld : dGet d "ldx" with
  | none =>
    rw [hld] at h
    simp at h
    subst h
    exact hpre
  | some l₀ =>
    rw [hld] at h
    cases l₀ with
    | vDict lm =>
      dsimp only at h
      cases hgt : dGet lm tier with
      | none =>
        rw [hgt] at h
        simp at h
        subst h
        exact hpre
      | some t₀ =>
        rw [hgt] at h
        cases t₀ with
        | vDict tm =>
          dsimp only at h
          by_cases hdr : dHas tm "database_reset" = true
          · rw [if_pos hdr] at h
            simp at h
            subst h
            intro l hl
            rw [dGet_dSet_self] at hl
            simp at hl
            subst hl
            obtain ⟨lm₀, hlm₀, hclean⟩ := hpre (.vDict lm) hld
            simp at hlm₀
            subst hlm₀
            refine ⟨_, rfl, fun t ht => ?_⟩
            rw [dGet_dSet_ne lm tier tier' _ hne] at ht
            exact hclean t ht
          · rw [if_neg hdr] at h
            simp at h
            subst h
            exact hpre
        | vStr s => simp at h
        | vBool b => simp at h
        | vList xs => simp at h
    | vStr s => simp at h
    | vBool b => simp at h
    | vList xs => simp at h

theorem process_ldx_features_post (d d' : VDict)
    (h : process_ldx_features d = .ok d') :
    ∀ l, dGet d' "ldx" = some l → ldxOk l := by
  unfold process_ldx_features at h
  cases h₁ : delResetTier d "edge" with
  | error e => rw [h₁] at h; simp at h
  | ok d1 =>
    rw [h₁] at h
    dsimp only at h
    cases h₂ : delResetTier d1 "studio" with
    | error e => rw [h₂] at h; simp at h
    | ok d2 =>
      rw [h₂] at h
      dsimp only at h
      have hedge : ∀ l, dGet d2 "ldx" = some l → ∃ lm, l = .vDict lm ∧ tierClean lm "edge" :=
        delResetTier_preserves d1 d2 "studio" "edge" (by decide) h₂
          (delResetTier_post d d1 "edge" h₁)
      have hstudio : ∀ l, dGet d2 "ldx" = some l → ∃ lm, l = .vDict lm ∧ tierClean lm "studio" :=
        delResetTier_post d1 d2 "studio" h₂
      cases hld : dGet d2 "ldx" with
      | none =>
        rw [hld] at h
        simp at h
        subst h
        intro l hl
        rw [hld] at hl
        simp at hl
      | some l₀ =>
        rw [hld] at h
        cases l₀ with
        | vDict lm =>
          dsimp only at h
          by_cases hcond : (truthyVal (.vDict lm) && ! dHas lm "features") = true
          · rw [if_pos hcond] at h
            simp at h
            subst h
            intro l hl
            rw [dGet_dSet_self] at hl
            simp at hl
            subst hl
            obtain ⟨lmE, hlmE, hcE⟩ := hedge (.vDict lm) hld
            obtain ⟨lmS, hlmS, hcS⟩ := hstudio (.vDict lm) hld
            simp at hlmE hlmS
            subst hlmE
            subst hlmS
            refine ⟨_, rfl, fun _ => dHas_dSet_self lm "features" featuresDefault, ?_, ?_⟩
            · intro t ht
              rw [dGet_dSet_ne lm "features" "edge" _ (by decide)] at ht
              exact hcE t ht
            · intro t ht
              rw [dGet_dSet_ne lm "features" "studio" _ (by decide)] at ht
              exact hcS t ht
          · rw [if_neg hcond] at h
            simp at h
            subst h
            intro l hl
            rw [hld] at hl
            simp at hl
            subst hl
            obtain ⟨lmE, hlmE, hcE⟩ := hedge (.vDict lm) hld
            obtain ⟨lmS, hlmS, hcS⟩ := hstudio (.vDict lm) hld
            simp at hlmE hlmS
            subst hlmE
            subst hlmS
            refine ⟨lm, rfl, ?_, hcE, hcS⟩
            intro ht
            simp [ht] at hcond
            exact hcond
        | vStr s =>
          dsimp only at h
          simp at h
          subst h
          intro l hl
          obtain ⟨lm, hlm, _⟩ := hedge l hl
          rw [hld] at hl
          simp at hl
          subst hl
          simp at hlm
        | vBool b =>
          dsimp only at h
          simp at h
          subst h
          intro l hl
          obtain ⟨lm, hlm, _⟩ := hedge l hl
          rw [hld] at hl
          simp at hl
          subst hl
          simp at hlm
        | vList xs =>
          dsimp only at h
          simp at h
          subst h
          intro l hl
          obtain ⟨lm, hlm, _⟩ := hedge l hl
          rw [hld] at hl
          simp at hl
          subst hl
          simp at hlm

theorem process_ldx_features_noop (d : VDict)
    (h : ∀ l, dGet d "ldx" = some l → ldxOk l) :
    process_ldx_features d = .ok d := by
  unfold process_ldx_features
  cases hld : dGet d "ldx" with
  | none =>
    have h₁ : delResetTier d "edge" = .ok d := by unfold delResetTier; rw [hld]
    have h₂ : delResetTier d "studio" = .ok d := by unfold delResetTier; rw [hld]
    rw [h₁]
    dsimp only
    rw [h₂]
    dsimp only
    rw [hld]
  | some l₀ =>
    obtain ⟨lm, hlm, hf, hE, hS⟩ := h l₀ hld
    subst hlm
    have htier : ∀ tier, tierClean lm tier → delResetTier d tier = .ok d := by
      intro tier hclean
      unfold delResetTier
      rw [hld]
      dsimp only
      cases hgt : dGet lm tier with
      | none => rfl
      | some t₀ =>
        obtain ⟨tm, htm, hdr⟩ := hclean t₀ hgt
        subst htm
        dsimp only
        rw [hdr]
        simp
    rw [htier "edge" hE]
    dsimp only
    rw [htier "studio" hS]
    dsimp only
    rw [hld]
    dsimp only
    have hcond : (truthyVal (.vDict lm) && ! dHas lm "features") = false := by
      by_cases ht : truthyVal (.vDict lm) = true
      · rw [ht, hf ht]
        rfl
      · simp only [Bool.not_eq_true] at ht
        rw [ht]
        rfl
    rw [hcond]
    simp

theorem VList.toList_ofList : ∀ l : List Val, (VList.ofList l).toList = l
  | [] => rfl
  | v :: tl => by simp [VList.ofList, VList.toList, VList.toList_ofList tl]

theorem entriesOfList_map : ∀ es : List VDict, entriesOfList (es.map Val.vDict) = .ok es
  | [] => rfl
  | e :: tl => by simp [entriesOfList, entriesOfList_map tl]

theorem entriesOf_entriesVal (es : List VDict) : entriesOf (entriesVal es) = .ok es := by
  unfold entriesOf entriesVal
  dsimp only
  rw [VList.toList_ofList]
  exact entriesOfList_map es

theorem checkDT_ok (md dep : VDict)
    (hdep : dGet md "deployment" = some (.vDict dep)) (hdt : dtOk dep) :
    process_deployment_templates md = .ok () := by
  unfold process_deployment_templates
  rw [hdep]
  dsimp only
  cases hg : dGet dep "deployment_templates" with
  | none => rfl
  | some t =>
    dsimp only
    by_cases htr : truthyVal t = true
    · rw [if_pos htr]
      rcases hdt t hg with hfalse | ⟨l, hl⟩
      · rw [htr] at hfalse; exact absurd hfalse (by simp)
      · subst hl; rfl
    · rw [if_neg htr]

theorem checkDT_shape (md : VDict) (w : Val) (hdep : dGet md "deployment" = some w)
    (h : process_deployment_templates md = .ok ()) :
    ∃ dep, w = .vDict dep ∧ dtOk dep := by
  unfold process_deployment_templates at h
  rw [hdep] at h
  cases w with
  | vDict dep =>
    refine ⟨dep, rfl, ?_⟩
    dsimp only at h
    intro t ht
    rw [ht] at h
    dsimp only at h
    by_cases htr : truthyVal t = true
    · rw [if_pos htr] at h
      cases t with
      | vList l => exact Or.inr ⟨l, rfl⟩
      | vStr s => simp at h
      | vBool b => simp at h
      | vDict m => simp at h
    · exact Or.inl (by simpa using htr)
  | vStr s => simp at h
  | vBool b => simp at h
  | vList xs => simp at h

/-- Every successful `fix_manifest` run produces the fixed serialized shape and
establishes the normalization invariants. -/
theorem fix_manifest_data_shape (file version : String) (d d' : VDict)
    (h : fix_manifest_data file version d = .ok d') :
    ∃ U md es sn,
      d' = fixedForm U md es ∧
      shortNameOf file = .ok sn ∧
      fixManifestsStage (isLdxFile file) es = .ok es ∧
      uOk (isLdxFile file) U ∧
      mdOk version (isLdxFile file) md := by
  unfold fix_manifest_data at h
  dsimp only at h
  cases hE : entriesOf ((dGet d "manifests").getD (entriesVal defaultManifests)) with
  | error e => rw [hE] at h; simp at h
  | ok entries =>
    rw [hE] at h
    dsimp only at h
    cases hLdx : isLdxFile file with
    | true =>
      rw [hLdx] at h
      cases hS : fixManifestsStage true entries with
      | error e => rw [hS] at h; simp at h
      | ok entries2 =>
        rw [hS] at h
        dsimp only at h
        rw [dGet_dSet_ne _ "manifests" "metadata" _ (by decide),
            dGet_dSet_ne _ "manifests" "metadata" _ (by decide)] at h
        cases hM : metaOf (dGet d "metadata") with
        | error e => rw [hM] at h; simp at h
        | ok md0 =>
          rw [hM] at h
          dsimp only at h
          cases hsn : shortNameOf file with
          | error e => rw [hsn] at h; simp at h
          | ok sn =>
            rw [hsn] at h
            dsimp only at h
            simp only [if_true] at h
            set d2 : VDict :=
              dSet (dSet d "manifests" ((dGet d "manifests").getD (entriesVal defaultManifests)))
                "manifests" (entriesVal entries2) with hd2
            cases hPL : process_ldx_features d2 with
            | error e => rw [hPL] at h; simp at h
            | ok d3 =>
              rw [hPL] at h
              dsimp only at h
              set md1 : VDict := dDel md0 "compatibility" with hmd1
              set w : Val := (dGet md1 "deployment").getD (defaultDeployment sn) with hw
              set md2 : VDict := dSet md1 "deployment" w with hmd2
              cases hPD : process_deployment_templates md2 with
              | error e => rw [hPD] at h; simp at h
              | ok u =>
                rw [hPD] at h
                dsimp only at h
                set md3 : VDict := dSet md2 "notes" notesVal with hmd3
                set md4 : VDict := dSet md3 "version" (.vStr version) with hmd4
                have hdep2 : dGet md2 "deployment" = some w := dGet_dSet_self md1 "deployment" w
                have hwdep : ∃ dep, w = .vDict dep ∧ dtOk dep :=
                  checkDT_shape md2 w hdep2 (by cases u; exact hPD)
                obtain ⟨dep, hwdep', hdt⟩ := hwdep
                have hcompat4 : dHas md4 "compatibility" = false := by
                  rw [hmd4, dHas_dSet_ne _ _ _ _ (by decide), hmd3,
                    dHas_dSet_ne _ _ _ _ (by decide), hmd2,
                    dHas_dSet_ne _ _ _ _ (by decide), hmd1]
                  exact dHas_dDel_self md0 "compatibility"
                have hnotes4 : dGet md4 "notes" = some notesVal := by
                  rw [hmd4, dGet_dSet_ne _ _ _ _ (by decide), hmd3]
                  exact dGet_dSet_self md2 "notes" notesVal
                have hver4 : dGet md4 "version" = some (.vStr version) :=
                  dGet_dSet_self md3 "version" (.vStr version)
                have hdep4 : dGet md4 "deployment" = some (.vDict dep) := by
                  rw [hmd4, dGet_dSet_ne _ _ _ _ (by decide), hmd3,
                    dGet_dSet_ne _ _ _ _ (by decide), ← hwdep']
                  exact hdep2
                by_cases hsrc : truthyOpt (dGet md4 "deployment_sources") = true
                · rw [if_pos hsrc] at h
                  simp only [Except.ok.injEq] at h
                  refine ⟨_, dDel md4 "deployment_sources", entries2, sn, h.symm, rfl, ?_, ?_, ?_⟩
                  · exact fixManifestsStage_fixpoint true entries entries2 hS
                  · refine ⟨(dHas_dExclude2_self _ _ _).2, (dHas_dExclude2_self _ _ _).1, ?_⟩
                    intro _ l hl
                    rw [dGet_dExclude2_ne _ _ _ _ (by decide) (by decide),
                      dGet_dSet_ne _ "metadata" "ldx" _ (by decide)] at hl
                    exact process_ldx_features_post d2 d3 hPL l hl
                  · refine ⟨?_, ?_, ?_, ?_, ?_⟩
                    · rw [dHas_dDel_ne _ _ _ (by decide)]
                      exact hcompat4
                    · rw [dGet_dDel_ne _ _ _ (by decide)]
                      exact hnotes4
                    · rw [dGet_dDel_ne _ _ _ (by decide)]
                      exact hver4
                    · intro v hv
                      rw [dGet_dDel_self] at hv
                      simp at hv
                    · intro _
                      refine ⟨dep, ?_, hdt⟩
                      rw [dGet_dDel_ne _ _ _ (by decide)]
                      exact hdep4
                · rw [if_neg hsrc] at h
                  simp only [Except.ok.injEq] at h
                  refine ⟨_, md4, entries2, sn, h.symm, rfl, ?_, ?_, ?_⟩
                  · exact fixManifestsStage_fixpoint true entries entries2 hS
                  · refine ⟨(dHas_dExclude2_self _ _ _).2, (dHas_dExclude2_self _ _ _).1, ?_⟩
                    intro _ l hl
                    rw [dGet_dExclude2_ne _ _ _ _ (by decide) (by decide),
                      dGet_dSet_ne _ "metadata" "ldx" _ (by decide)] at hl
                    exact process_ldx_features_post d2 d3 hPL l hl
                  · refine ⟨hcompat4, hnotes4, hver4, ?_, fun _ => ⟨dep, hdep4, hdt⟩⟩
                    intro v hv
                    simp only [Bool.not_eq_true] at hsrc
                    rw [hv] at hsrc
                    exact hsrc
    | false =>
      rw [hLdx] at h
      cases hS : fixManifestsStage false entries with
      | error e => rw [hS] at h; simp at h
      | ok entries2 =>
        rw [hS] at h
        dsimp only at h
        rw [dGet_dSet_ne _ "manifests" "metadata" _ (by decide),
            dGet_dSet_ne _ "manifests" "metadata" _ (by decide)] at h
        cases hM : metaOf (dGet d "metadata") with
        | error e => rw [hM] at h; simp at h
        | ok md0 =>
          rw [hM] at h
          dsimp only at h
          cases hsn : shortNameOf file with
          | error e => rw [hsn] at h; simp at h
          | ok sn =>
            rw [hsn] at h
            dsimp only at h
            simp only [Bool.false_eq_true, if_false] at h
            set md1 : VDict := dDel md0 "compatibility" with hmd1
            set md3 : VDict := dSet md1 "notes" notesVal with hmd3
            set md4 : VDict := dSet md3 "version" (.vStr version) with hmd4
            have hcompat4 : dHas md4 "compatibility" = false := by
              rw [hmd4, dHas_dSet_ne _ _ _ _ (by decide), hmd3,
                dHas_dSet_ne _ _ _ _ (by decide), hmd1]
              exact dHas_dDel_self md0 "compatibility"
            have hnotes4 : dGet md4 "notes" = some notesVal := by
              rw [hmd4, dGet_dSet_ne _ _ _ _ (by decide), hmd3]
              exact dGet_dSet_self md1 "notes" notesVal
            have hver4 : dGet md4 "version" = some (.vStr version) :=
              dGet_dSet_self md3 "version" (.vStr version)
            by_cases hsrc : truthyOpt (dGet md4 "deployment_sources") = true
            · rw [if_pos hsrc] at h
              simp only [Except.ok.injEq] at h
              refine ⟨_, dDel md4 "deployment_sources", entries2, sn, h.symm, rfl, ?_, ?_, ?_⟩
              · exact fixManifestsStage_fixpoint false entries entries2 hS
              · exact ⟨(dHas_dExclude2_self _ _ _).2, (dHas_dExclude2_self _ _ _).1,
                  fun hc => by simp at hc⟩
              · refine ⟨?_, ?_, ?_, ?_, fun hc => by simp at hc⟩
                · rw [dHas_dDel_ne _ _ _ (by decide)]
                  exact hcompat4
                · rw [dGet_dDel_ne _ _ _ (by decide)]
                  exact hnotes4
                · rw [dGet_dDel_ne _ _ _ (by decide)]
                  exact hver4
                · intro v hv
                  rw [dGet_dDel_self] at hv
                  simp at hv
            · rw [if_neg hsrc] at h
              simp only [Except.ok.injEq] at h
              refine ⟨_, md4, entries2, sn, h.symm, rfl, ?_, ?_, ?_⟩
              · exact fixManifestsStage_fixpoint false entries entries2 hS
              · exact ⟨(dHas_dExclude2_self _ _ _).2, (dHas_dExclude2_self _ _ _).1,
                  fun hc => by simp at hc⟩
              · refine ⟨hcompat4, hnotes4, hver4, ?_,
                  fun hc => by simp at hc⟩
                intro v hv
                simp only [Bool.not_eq_true] at hsrc
                rw [hv] at hsrc
                exact hsrc

theorem dGet_dcons_self (k : String) (v : Val) (tl : VDict) :
    dGet (.dcons k v tl) k = some v := by
  simp [dGet]

theorem dGet_dcons_ne (k' k : String) (v : Val) (tl : VDict) (h : ¬ k' = k) :
    dGet (.dcons k' v tl) k = dGet tl k := by
  simp [dGet, h]

theorem dSet_dcons_self (k : String) (v v' : Val) (tl : VDict) :
    dSet (.dcons k v tl) k v' = .dcons k v' tl := by
  simp [dSet]

theorem dSet_dcons_ne (k' k : String) (v v' : Val) (tl : VDict) (h : ¬ k' = k) :
    dSet (.dcons k' v tl) k v' = .dcons k' v (dSet tl k v') := by
  simp [dSet, h]

/-- A document already in the fixed serialized shape with all invariants is a
fixpoint of `fix_manifest_data`. -/
theorem fix_manifest_data_fixed (file version sn : String) (U md : VDict) (es : List VDict)
    (hsn : shortNameOf file = .ok sn)
    (hstage : fixManifestsStage (isLdxFile file) es = .ok es)
    (hU : uOk (isLdxFile file) U)
    (hmd : mdOk version (isLdxFile file) md) :
    fix_manifest_data file version (fixedForm U md es) = .ok (fixedForm U md es) := by
  obtain ⟨hUman, hUmeta, hUldx⟩ := hU
  obtain ⟨hcompat, hnotes, hver, hsrc, hdep⟩ := hmd
  have hCUman : dHas (convertDictItems U) "manifests" = false := by
    rw [dHas_conv]; exact hUman
  have hCUmeta : dHas (convertDictItems U) "metadata" = false := by
    rw [dHas_conv]; exact hUmeta
  have hman : dGet (fixedForm U md es) "manifests" = some (entriesVal es) := by
    unfold fixedForm
    rw [dGet_dApp_of_absent _ _ _ hCUman, dGet_dcons_self]
  have hmeta : dGet (fixedForm U md es) "metadata" = some (.vDict (convertDictItems md)) := by
    unfold fixedForm
    rw [dGet_dApp_of_absent _ _ _ hCUmeta, dGet_dcons_ne _ _ _ _ (by decide),
      dGet_dcons_self]
  have hnotesc : dGet (convertDictItems md) "notes" = some notesVal := by
    rw [dGet_conv, hnotes]
    rfl
  have hverc : dGet (convertDictItems md) "version" = some (tryBool version) := by
    rw [dGet_conv, hver]
    rfl
  have hsrcc : truthyOpt (dGet (dSet (convertDictItems md) "version" (.vStr version))
      "deployment_sources") = false := by
    rw [dGet_dSet_ne _ _ _ _ (by decide), dGet_conv]
    cases hg : dGet md "deployment_sources" with
    | none => rfl
    | some v =>
      show truthyVal (convertDictValue v) = false
      exact truthy_conv_false v (hsrc v hg)
  have hset4 : dSet (fixedForm U md es) "metadata"
        (.vDict (dSet (convertDictItems md) "version" (.vStr version))) =
      dApp (convertDictItems U)
        (.dcons "manifests" (entriesVal es)
          (.dcons "metadata" (.vDict (dSet (convertDictItems md) "version" (.vStr version)))
            .dnil)) := by
    unfold fixedForm
    rw [dSet_dApp_of_absent _ _ _ _ hCUmeta, dSet_dcons_ne _ _ _ _ _ (by decide),
      dSet_dcons_self]
  have hexc : dExclude2
      (dApp (convertDictItems U)
        (.dcons "manifests" (entriesVal es)
          (.dcons "metadata" (.vDict (dSet (convertDictItems md) "version" (.vStr version)))
            .dnil))) "metadata" "manifests" = convertDictItems U := by
    rw [dExclude2_dApp, dExclude2_of_absent _ _ _ hCUmeta hCUman]
    have : dExclude2
        (VDict.dcons "manifests" (entriesVal es)
          (VDict.dcons "metadata" (.vDict (dSet (convertDictItems md) "version" (.vStr version)))
            VDict.dnil)) "metadata" "manifests" = .dnil := by
      unfold dExclude2
      rw [if_pos (Or.inr rfl)]
      unfold dExclude2
      rw [if_pos (Or.inl rfl)]
      rfl
    rw [this, dApp_dnil]
  have hconvmd4 : convertDictItems (dSet (convertDictItems md) "version" (.vStr version)) =
      convertDictItems md := by
    rw [conv_dSet, convertDictItems_idem]
    exact dSet_eq_of_get _ _ _ hverc
  unfold fix_manifest_data
  dsimp only
  rw [hman]
  simp only [Option.getD_some]
  simp only [dSet_eq_of_get _ _ _ hman]
  rw [entriesOf_entriesVal]
  dsimp only
  rw [hstage]
  dsimp only
  simp only [dSet_eq_of_get _ _ _ hman]
  rw [hmeta,
    show (metaOf (some (Val.vDict (convertDictItems md))) : Except String VDict) =
      .ok (convertDictItems md) from rfl]
  dsimp only
  rw [dDel_of_absent _ _ (by rw [dHas_conv]; exact hcompat)]
  rw [hsn]
  dsimp only
  cases hLdx : isLdxFile file with
  | true =>
    have hldall : ∀ l, dGet (fixedForm U md es) "ldx" = some l → ldxOk l := by
      intro l hl
      unfold fixedForm at hl
      by_cases hhas : dHas (convertDictItems U) "ldx" = true
      · rw [dGet_dApp_of_present _ _ _ hhas, dGet_conv] at hl
        cases hg : dGet U "ldx" with
        | none => rw [hg] at hl; simp at hl
        | some l₀ =>
          rw [hg] at hl
          simp at hl
          rw [← hl]
          exact ldxOk_conv l₀ (hUldx hLdx l₀ hg)
      · rw [dGet_dApp_of_absent _ _ _ (by simpa using hhas),
          dGet_dcons_ne _ _ _ _ (by decide), dGet_dcons_ne _ _ _ _ (by decide)] at hl
        simp [dGet] at hl
    obtain ⟨dep, hdep', hdt⟩ := hdep hLdx
    have hdepc : dGet (convertDictItems md) "deployment" =
        some (.vDict (convertDictItems dep)) := by
      rw [dGet_conv, hdep']
      rfl
    simp only [reduceIte]
    rw [process_ldx_features_noop _ hldall]
    dsimp only
    rw [hdepc]
    simp only [Option.getD_some]
    rw [dSet_eq_of_get _ _ _ hdepc]
    rw [checkDT_ok (convertDictItems md) (convertDictItems dep) hdepc (dtOk_conv dep hdt)]
    dsimp only
    rw [dSet_eq_of_get _ _ _ hnotesc]
    rw [hsrcc]
    simp only [Bool.false_eq_true, if_false]
    rw [hset4, hexc]
    rw [convertDictItems_idem U, hconvmd4]
    rfl
  | false =>
    simp only [Bool.false_eq_true, if_false]
    rw [dSet_eq_of_get _ _ _ hnotesc]
    rw [hsrcc]
    simp only [Bool.false_eq_true, if_false]
    rw [hset4, hexc]
    rw [convertDictItems_idem U, hconvmd4]
    rfl

/-- A metadata field of a parsed manifest document. -/
def metaField (d : VDict) (k : String) : Option Val :=
  match dGet d "metadata" with
  | some (.vDict m) => dGet m k
  | _ => none

/-- C8: the manifest fixer is idempotent on already-normalized input — for
every manifest whose `metadata.version` already equals the current project
version and which contains no `compatibility` or `deployment_sources` keys,
running the fixer a second time on the fixer's own output yields byte-identical
text (identical token lists under the modelled serialization layer).  The
result holds for every manifest on which the first run succeeds. -/
theorem c8_fix_manifest_idempotent (file version : String) (ts out : List Tok) (d : VDict)
    (hparse : parseManifestText ts = some d)
    (hver : metaField d "version" = some (.vStr version))
    (hcompat : metaField d "compatibility" = none)
    (hsrcs : metaField d "deployment_sources" = none)
    (hfix : fix_manifest_text file version ts = some out) :
    fix_manifest_text file version out = some out := by
  unfold fix_manifest_text at hfix ⊢
  rw [hparse] at hfix
  dsimp only at hfix
  cases hF : fix_manifest_data file version d with
  | error e => rw [hF] at hfix; simp at hfix
  | ok d' =>
    rw [hF] at hfix
    simp at hfix
    subst hfix
    rw [parseManifestText_serD d']
    dsimp only
    obtain ⟨U, md, es, sn, hform, hsn, hst, hU2, hmd2⟩ :=
      fix_manifest_data_shape file version d d' hF
    subst hform
    rw [fix_manifest_data_fixed file version sn U md es hsn hst hU2 hmd2]

/-- The manifest path used by the idempotence witness. -/
def c8file : String := "config/ld--env--foo--bar.yaml"

/-- A small already-normalized manifest document. -/
def c8doc : VDict :=
  .dcons "metadata" (.vDict (.dcons "version" (.vStr "1.2.3") .dnil)) .dnil

/-- The fixer's output on the witness document. -/
def c8out : List Tok := (fix_manifest_text c8file "1.2.3" (serD c8doc)).getD []

/-- Witness for `c8_fix_manifest_idempotent` at a concrete manifest. -/
theorem c8_fix_manifest_idempotent_witness :
    fix_manifest_text c8file "1.2.3" c8out = some c8out :=
  c8_fix_manifest_idempotent c8file "1.2.3" (serD c8doc) c8out c8doc
    (by decide) (by decide) (by decide) (by decide) (by decide)

/-! ### The orchestration layer as a writer/except monad

Stateful orchestration code is embedded as computations
`Env → Nat → Except Err α × Nat × List Eff`: the environment supplies the
responses of the external world (git command results as a stream consumed in
call order, file contents, branch listings); the `Nat` counts git calls made;
the effect list records the externally visible actions (git commands, file
writes, diagnostics).  Exceptions are `Except` errors.  Wall-clock time (the
5-second backoff budget) is not modelled: the retry wrapper always allows the
configured 3 tries. -/

inductive Eff where
  | git (dir : String) (cmd : String) (args : List String)
  | fileWrite (file : String)
  | echo (msg : String)
deriving DecidableEq

inductive Err where
  | exit (code : Nat)
  | gitError (msg : String)
  | pyExc (msg : String)
deriving DecidableEq

structure Env where
  gitResults : List (Int × String × String)
  fileExists : String → Bool
  fileText : String → String
  fileDoc : String → VDict
  isScriptPath : String → Bool
  localBranches : List String
  remoteRefs : List String
  workingDir : String
  active : Nat → String
  versionText : String

def M (α : Type) : Type := Env → Nat → Except Err α × Nat × List Eff

def mPure {α : Type} (a : α) : M α := fun _ n => (.ok a, n, [])

def mBind {α β : Type} (x : M α) (f : α → M β) : M β := fun env n =>
  match x env n with
  | (.ok a, n', t₁) =>
    match f a env n' with
    | (r, n'', t₂) => (r, n'', t₁ ++ t₂)
  | (.error e, n', t₁) => (.error e, n', t₁)

def mThrow {α : Type} (e : Err) : M α := fun _ n => (.error e, n, [])

def emit (e : Eff) : M Unit := fun _ n => (.ok (), n, [e])

def echoM (msg : String) : M Unit := emit (.echo msg)

def getEnvM : M Env := fun env n => (.ok env, n, [])

def getIdxM : M Nat := fun _ n => (.ok n, n, [])

def mTry {α : Type} (x : M α) (handler : Err → M α) : M α := fun env n =>
  match x env n with
  | (.ok a, n', t) => (.ok a, n', t)
  | (.error e, n', t) =>
    match handler e env n' with
    | (r, n'', t₂) => (r, n'', t ++ t₂)

def mForM {α : Type} (f : α → M Unit) : List α → M Unit
  | [] => mPure ()
  | a :: as => mBind (f a) fun _ => mForM f as

/-- Model of `run_git_cmd`: execute one git command (`with_exceptions=False`,
so it never raises) and return the next `(rc, stdout, stderr)` of the
environment's result stream. -/
def run_git_cmd (dir cmd : String) (args : List String) : M (Int × String × String) :=
  fun env n => (.ok (env.gitResults.getD n (0, "", "")), n + 1, [.git dir cmd args])

/-- One attempt of `run_git`: run the command, and on a nonzero return code
echo and raise — `typer.Exit(1)` when a `fail_on` pattern matches the output
(and `exit_on_error`), `GitCommandError` when stderr is nonempty.  A nonzero
return code with empty stderr is returned to the caller. -/
def run_git_attempt (dir cmd : String) (args : List String) (check_rc exit_on_error : Bool)
    (fail_on : List String) (target : String) (verbose : Nat) : M Int :=
  mBind (run_git_cmd dir cmd args) fun r =>
    mBind (if verbose > 0 then echoM r.2.1 else mPure ()) fun _ =>
      if check_rc && !(r.1 == 0) then
        mBind
          (if !(r.2.1 == "") && !fail_on.isEmpty && fail_on.any (fun f => hasStr r.2.1 f) then
            mBind (echoM "Failed on fail_on patterns") fun _ =>
              if exit_on_error then mThrow (.exit 1) else mPure ()
          else mPure ()) fun _ =>
          if !(r.2.2 == "") then
            mBind (echoM ("Failed to " ++ cmd ++ " " ++ target)) fun _ =>
              mBind (echoM r.2.2) fun _ =>
                mThrow (.gitError ("Failed to " ++ cmd ++ " " ++ target))
          else mPure r.1
      else mPure r.1

/-- The `backoff.on_exception` wrapper around `run_git`: retry on
`GitCommandError` only, with `fuel` remaining retries; on exhaustion echo the
give-up diagnostic and re-raise. -/
def withGitRetry : Nat → M Int → M Int
  | 0, x => mTry x fun e =>
      match e with
      | .gitError msg =>
        mBind (echoM ("Backoff giving up after 3 tries: " ++ msg)) fun _ =>
          mThrow (.gitError msg)
      | e' => mThrow e'
  | f + 1, x => mTry x fun e =>
      match e with
      | .gitError _ =>
        mBind (echoM "Backoff retrying") fun _ => withGitRetry f x
      | e' => mThrow e'

/-- `run_git` with its decorator: up to `THROTTLED_BACKOFF_MAX_TRIES = 3`
attempts. -/
def run_git (dir cmd : String) (args : List String) (check_rc exit_on_error : Bool)
    (fail_on : List String) (target : String) (verbose : Nat) : M Int :=
  withGitRetry 2 (run_git_attempt dir cmd args check_rc exit_on_error fail_on target verbose)

/-- `write_file`. -/
def write_fileM (file : String) : M Unit := emit (.fileWrite file)

/-- `read_file`: the unmerged-marker gate, wrapped in the catch-all that
echoes and re-raises. -/
def read_fileM (file : String) : M String :=
  mTry
    (mBind getEnvM fun env =>
      if hasStr (env.fileText file) conflictStart && hasStr (env.fileText file) conflictEnd
          && hasStr (env.fileText file) conflictMid && !(env.isScriptPath file) then
        mBind (echoM ("Unmerged file: " ++ file)) fun _ => mThrow (.exit 1)
      else mPure (env.fileText file))
    (fun e => mBind (echoM ("Failed to read " ++ file)) fun _ => mThrow e)

/-- `fix_manifest` as a computation: read the file, run the pure
normalization pipeline, then — with only the file write guarded by dry-run —
write, stage and commit.  Any exception is echoed and re-raised. -/
def fix_manifestM (file repoDir target : String) (verbose : Nat) (dry_run : Bool) :
    M (List Tok) :=
  mTry
    (mBind (read_fileM file) fun _ =>
      mBind getEnvM fun env =>
        match fix_manifest_data file env.versionText (env.fileDoc file) with
        | .error msg => mThrow (.pyExc msg)
        | .ok d' =>
          mBind (if !dry_run then write_fileM file else mPure ()) fun _ =>
            mBind (run_git repoDir "add" [file] true true [] target verbose) fun _ =>
              mBind (run_git repoDir "commit"
                  ["--message='Sync " ++ file ++ " to " ++ target ++ "'", "--no-verify"]
                  true true [] target verbose) fun _ =>
                mPure (serD d'))
    (fun e => mBind (echoM ("Failed to fix " ++ file)) fun _ => mThrow e)

/-- `update_manifest`: announce-and-return under dry-run; otherwise write the
given manifest text (when present) and run the fixer. -/
def update_manifestM (manifest : Option String) (manifest_file repoDir target : String)
    (dry_run : Bool) (verbose : Nat) : M Unit :=
  mBind (if verbose > 0 then echoM ("Updating manifest: " ++ manifest_file) else mPure ())
    fun _ =>
    if dry_run then echoM ("Would update manifest: " ++ manifest_file)
    else
      mBind (match manifest with
        | some _ => write_fileM manifest_file
        | none => mPure ()) fun _ =>
        mBind (fix_manifestM manifest_file repoDir target verbose dry_run) fun _ => mPure ()

/-- Worktree-map lookup (`branch in worktrees` / `worktrees[branch]`). -/
def lookupWt (wt : List (String × String)) (b : String) : Option String :=
  (wt.find? (fun p => p.1 == b)).map (fun p => p.2)

/-- The manifest-handling tail of `process_branch`: look for
`config/<branch>.yaml` under the resolved path, and when present (and not
dry-run) read it, check out the *target* branch in the primary repository and
update the manifest there. -/
def branchManifestPart (path : Option String) (repoDir branch target : String)
    (dry_run : Bool) (verbose : Nat) : M Unit :=
  mBind getEnvM fun env =>
    match path with
    | some p =>
      if env.fileExists (p ++ "/config/" ++ branch ++ ".yaml") then
        if dry_run then echoM ("Would update manifest: config/" ++ branch ++ ".yaml")
        else
          mBind (read_fileM (p ++ "/config/" ++ branch ++ ".yaml")) fun manifest =>
            mBind (run_git repoDir "checkout" [target] true true [] target verbose) fun rc =>
              if !(rc == 0) then mPure ()
              else
                update_manifestM (some manifest) ("config/" ++ branch ++ ".yaml")
                  repoDir target dry_run verbose
      else echoM ("Error: " ++ target ++ " does not have config/" ++ branch ++ ".yaml")
    | none => echoM ("Error: " ++ target ++ " does not have config/" ++ branch ++ ".yaml")

/-- The non-worktree path of `process_branch`: possibly create the local
branch, then sync it (checkout, non-rebasing pull, forced tag pull) with each
checkout/pull failure intended to skip the branch.  The `error_on_fail=False`
keyword passed at the call sites is not a parameter of `run_git`; it is
swallowed by `**kwargs` and dropped, so the calls run with the default
`check_rc=True, exit_on_error=True`.  Returns the resolved path when the
branch survives to manifest handling. -/
def process_branch_normal (repoDir : String) (refIsRemote : Bool) (refName branch target : String)
    (dry_run : Bool) (verbose : Nat) : M (Option String) :=
  mBind
    (if refIsRemote then
      mBind getEnvM fun env =>
        if env.localBranches.contains branch then
          if verbose > 0 then echoM ("Existing branch: " ++ branch) else mPure ()
        else
          if dry_run then echoM ("Would create branch: " ++ branch ++ " from " ++ refName)
          else
            mBind (echoM ("Creating branch: " ++ branch ++ " from " ++ refName)) fun _ =>
              mBind (run_git repoDir "checkout" [branch] true true [] target verbose) fun _ =>
                mPure ()
    else if verbose > 0 then echoM ("Existing branch: " ++ branch) else mPure ()) fun _ =>
    mBind (if verbose > 0 then echoM ("Sync " ++ branch) else mPure ()) fun _ =>
      if dry_run then mBind (echoM ("Would sync branch: " ++ branch)) fun _ => mPure none
      else
        mBind (run_git repoDir "checkout" [branch] true true [] target verbose) fun rc1 =>
          if !(rc1 == 0) then mPure none
          else
            mBind (run_git repoDir "pull" ["--rebase=false"] true true [] target verbose)
              fun rc2 =>
              if !(rc2 == 0) then mPure none
              else
                mBind (run_git repoDir "pull" ["--tags", "--force"] true true [] target verbose)
                  fun _ =>
                  mBind getIdxM fun n =>
                    mBind getEnvM fun env =>
                      if !(env.active n == branch) then
                        mBind (echoM ("Failed to checkout " ++ branch)) fun _ => mPure none
                      else mPure (some repoDir)

/-- `process_branch`: worktree-resident branches (present in the map with a
path differing from the primary working directory) skip the sync entirely and
go straight to manifest handling at the worktree path; all other branches run
the normal sync. -/
def process_branchM (repoDir : String) (refIsRemote : Bool) (refName branch : String)
    (worktrees : List (String × String)) (target : String) (dry_run : Bool) (verbose : Nat) :
    M Unit :=
  match lookupWt worktrees branch with
  | some p =>
    if !(p == repoDir) then
      mBind (if verbose > 0 then echoM ("Worktree: " ++ branch) else mPure ()) fun _ =>
        branchManifestPart (some p) repoDir branch target dry_run verbose
    else
      mBind (process_branch_normal repoDir refIsRemote refName branch target dry_run verbose)
        fun path =>
        match path with
        | some pp => branchManifestPart (some pp) repoDir branch target dry_run verbose
        | none => mPure ()
  | none =>
    mBind (process_branch_normal repoDir refIsRemote refName branch target dry_run verbose)
      fun path =>
      match path with
      | some pp => branchManifestPart (some pp) repoDir branch target dry_run verbose
      | none => mPure ()

/-- `sync_target_branch`: dry-run announces and returns; a target present in
the worktree map is synced through a separate repository handle at the
worktree path (fetch all/tags, then a non-rebasing pull); otherwise the
primary repository is fetched, checked out and pulled. -/
def sync_target_branchM (repoDir target : String) (dry_run : Bool) (verbose : Nat)
    (worktrees : List (String × String)) : M Unit :=
  mBind (if verbose > 0 then echoM ("Syncing branch: " ++ target) else mPure ()) fun _ =>
    if dry_run then echoM ("Would sync " ++ target ++ " with remote")
    else
      match lookupWt worktrees target with
      | some p =>
        mBind (if verbose > 0 then echoM ("Using worktree at " ++ p ++ " for " ++ target)
          else mPure ()) fun _ =>
          mBind (run_git p "fetch" ["--all", "--tags"] true true [] target verbose) fun _ =>
            mBind (run_git p "pull" ["--rebase=false"] true true [] target verbose) fun _ =>
              mPure ()
      | none =>
        mTry
          (mBind (run_git repoDir "fetch" ["--all", "--tags"] true true [] target verbose)
            fun _ =>
            mBind (run_git repoDir "checkout" [target] true true [] target verbose) fun _ =>
              mBind (run_git repoDir "pull" ["--rebase=false"] true true [] target verbose)
                fun _ => mPure ())
          (fun e =>
            mBind
              (if (match e with
                  | .gitError m => hasStr m "is already used by worktree"
                  | .pyExc m => hasStr m "is already used by worktree"
                  | .exit _ => false) then
                echoM ("Branch " ++ target ++
                  " is in use by a worktree but not found in worktree list")
              else mPure ()) fun _ => mThrow e)

/-- `print_environment_branches`: list local branches, printing those whose
name passes the 4-segment test. -/
def print_environment_branchesM (verbose : Nat) : M Unit :=
  mBind getEnvM fun env =>
    mForM
      (fun name =>
        if qualifies_env_branch name then echoM ("Existing branch: " ++ name)
        else if verbose > 0 then echoM ("Ignoring ref: " ++ name) else mPure ())
      env.localBranches

/-- Strip the remote prefix: everything after the first `/`. -/
def dropRemotePrefix (s : String) : String :=
  match findSplit ['/'] s.toList with
  | some (_, b) => String.mk b
  | none => s

/-- `process_remote_refs`: iterate the remote refs, skipping the target and
names already present locally, and process those whose short name passes the
4-segment test. -/
def process_remote_refsM (repoDir target : String) (worktrees : List (String × String))
    (dry_run : Bool) (verbose : Nat) : M Unit :=
  mBind (if verbose > 0 then echoM "Processing remote references..." else mPure ()) fun _ =>
    mBind getEnvM fun env =>
      mForM
        (fun refName =>
          if !(refName == target) && !(env.localBranches.contains refName) then
            if qualifies_env_branch (dropRemotePrefix refName) then
              mBind (echoM (target ++ " <- " ++ dropRemotePrefix refName)) fun _ =>
                process_branchM repoDir true refName (dropRemotePrefix refName) worktrees
                  target dry_run verbose
            else if verbose > 0 then echoM ("Ignore " ++ refName) else mPure ()
          else mPure ())
        env.remoteRefs

/-- `initialize_repo`: list the worktrees (fatal on a nonzero return code),
parse them, and validate that the target branch exists locally. -/
def initialize_repoM (target : String) (verbose : Nat) : M (List (String × String)) :=
  mBind getEnvM fun env =>
    mBind (run_git_cmd env.workingDir "worktree" ["list"]) fun r =>
      if !(r.1 == 0) then
        mBind (echoM r.2.2) fun _ => mThrow (.exit r.1.toNat)
      else
        if env.localBranches.contains target then
          mBind (if verbose > 0 then echoM ("Repository: " ++ env.workingDir) else mPure ())
            fun _ => mPure (parse_worktrees r.2.1)
        else
          mBind (echoM ("Invalid branch: " ++ target)) fun _ => mThrow (.exit 1)

/-- `compare_branches` as a computation: fetch with prune, then compute the
common / remote-only / local-only partition over short names. -/
def compare_branchesM (repoDir : String) (verbose : Nat) :
    M (List String × List String × List String) :=
  mBind (if verbose > 0 then echoM "Comparing remote and local branches..." else mPure ())
    fun _ =>
    mBind (run_git repoDir "fetch" ["--all", "--prune"] true true [] "" verbose) fun _ =>
      mBind getEnvM fun env =>
        mPure
          (let remote := (env.remoteRefs.filter (fun n => notHead n)).map get_branch_shortname
          let locals := env.localBranches.filter (fun n => notHead n)
          (locals.filter (fun n => remote.contains n),
            remote.filter (fun n => !(locals.contains n)),
            locals.filter (fun n => !(remote.contains n))))

/-- `prune_local_branches`: dry-run announces each deletion; otherwise delete,
swallowing per-branch failures with a diagnostic. -/
def prune_local_branchesM (repoDir : String) (local_only : List String) (dry_run : Bool)
    (verbose : Nat) : M Unit :=
  if local_only.isEmpty then
    if verbose > 0 then echoM "No local-only branches to prune" else mPure ()
  else
    mBind (if verbose > 0 then echoM "Pruning local-only branches..." else mPure ()) fun _ =>
      mForM
        (fun branch =>
          if dry_run then echoM ("Would delete local branch: " ++ branch)
          else
            mBind (if verbose > 0 then echoM ("Deleting local branch: " ++ branch)
              else mPure ()) fun _ =>
              mTry
                (mBind (run_git repoDir "branch" ["-D", branch] true true [] "" verbose)
                  fun _ => mPure ())
                (fun _ => echoM ("Failed to delete branch " ++ branch)))
        local_only

/-- `sync_branches`: the orchestration sequence, with the single top-level
catch that echoes the error and exits with code 1. -/
def sync_branchesM (target : String) (dry_run : Bool) (verbose : Nat) (sync prune : Bool) :
    M Unit :=
  mTry
    (mBind (if verbose > 0 && dry_run then echoM "Dry run mode - no changes will be made"
      else mPure ()) fun _ =>
      mBind getEnvM fun env =>
        mBind (initialize_repoM target verbose) fun worktrees =>
          mBind
            (if sync || prune then
              mBind (compare_branchesM env.workingDir verbose) fun cmp =>
                if prune then prune_local_branchesM env.workingDir cmp.2.2 dry_run verbose
                else mPure ()
            else mPure ()) fun _ =>
            mBind (sync_target_branchM env.workingDir target dry_run verbose worktrees) fun _ =>
              mBind (print_environment_branchesM verbose) fun _ =>
                mBind (if sync then
                    process_remote_refsM env.workingDir target worktrees dry_run verbose
                  else mPure ()) fun _ =>
                  if !(target == "main") && !(target == "master")
                      && env.fileExists ("config/" ++ target ++ ".yaml") then
                    update_manifestM none ("config/" ++ target ++ ".yaml") env.workingDir
                      target dry_run verbose
                  else
                    echoM ("Error: " ++ target ++ " branch does not have config/"
                      ++ target ++ ".yaml"))
    (fun _ => mBind (echoM "Error: fatal") fun _ => mThrow (.exit 1))

/-! ### Frame reasoning over emitted effects -/

/-- Every effect emitted by the computation satisfies the predicate, for every
environment and starting state. -/
def EmitsOnly {α : Type} (x : M α) (P : Eff → Prop) : Prop :=
  ∀ env n e, e ∈ (x env n).2.2 → P e

theorem emits_mPure {α : Type} (a : α) (P : Eff → Prop) : EmitsOnly (mPure a) P := by
  intro env n e he
  simp [mPure] at he

theorem emits_mThrow {α : Type} (er : Err) (P : Eff → Prop) :
    EmitsOnly (mThrow er : M α) P := by
  intro env n e he
  simp [mThrow] at he

theorem emits_emit (ef : Eff) (P : Eff → Prop) (h : P ef) : EmitsOnly (emit ef) P := by
  intro env n e he
  simp [emit] at he
  rw [he]
  exact h

theorem emits_echoM (msg : String) (P : Eff → Prop) (h : ∀ m, P (.echo m)) :
    EmitsOnly (echoM msg) P :=
  emits_emit _ P (h msg)

theorem emits_getEnvM (P : Eff → Prop) : EmitsOnly getEnvM P := by
  intro env n e he
  simp [getEnvM] at he

theorem emits_getIdxM (P : Eff → Prop) : EmitsOnly getIdxM P := by
  intro env n e he
  simp [getIdxM] at he

theorem emits_run_git_cmd (dir cmd : String) (args : List String) (P : Eff → Prop)
    (h : P (.git dir cmd args)) : EmitsOnly (run_git_cmd dir cmd args) P := by
  intro env n e he
  simp [run_git_cmd] at he
  rw [he]
  exact h

theorem emits_mBind {α β : Type} (x : M α) (f : α → M β) (P : Eff → Prop)
    (hx : EmitsOnly x P) (hf : ∀ a, EmitsOnly (f a) P) : EmitsOnly (mBind x f) P := by
  intro env n e he
  unfold mBind at he
  rcases hx' : x env n with ⟨r, n', t₁⟩
  rw [hx'] at he
  cases r with
  | ok a =>
    rcases hf' : f a env n' with ⟨r₂, n₂, t₂⟩
    dsimp only at he
    rw [hf'] at he
    simp at he
    rcases he with he | he
    · exact hx env n e (by rw [hx']; exact he)
    · exact hf a env n' e (by rw [hf']; exact he)
  | error er =>
    simp at he
    exact hx env n e (by rw [hx']; exact he)

theorem emits_mTry {α : Type} (x : M α) (handler : Err → M α) (P : Eff → Prop)
    (hx : EmitsOnly x P) (hh : ∀ er, EmitsOnly (handler er) P) :
    EmitsOnly (mTry x handler) P := by
  intro env n e he
  unfold mTry at he
  rcases hx' : x env n with ⟨r, n', t₁⟩
  rw [hx'] at he
  cases r with
  | ok a =>
    simp at he
    exact hx env n e (by rw [hx']; exact he)
  | error er =>
    rcases hh' : handler er env n' with ⟨r₂, n₂, t₂⟩
    dsimp only at he
    rw [hh'] at he
    simp at he
    rcases he with he | he
    · exact hx env n e (by rw [hx']; exact he)
    · exact hh er env n' e (by rw [hh']; exact he)

theorem emits_ite (c : Prop) [Decidable c] {α : Type} (x y : M α) (P : Eff → Prop)
    (hx : EmitsOnly x P) (hy : EmitsOnly y P) : EmitsOnly (if c then x else y) P := by
  by_cases h : c
  · rw [if_pos h]; exact hx
  · rw [if_neg h]; exact hy

theorem emits_mForM {α : Type} (f : α → M Unit) (P : Eff → Prop)
    (hf : ∀ a, EmitsOnly (f a) P) : ∀ l : List α, EmitsOnly (mForM f l) P
  | [] => emits_mPure () P
  | a :: as => emits_mBind _ _ P (hf a) (fun _ => emits_mForM f P hf as)

theorem emits_run_git_attempt (dir cmd : String) (args : List String)
    (check_rc exit_on_error : Bool) (fail_on : List String) (target : String) (verbose : Nat)
    (P : Eff → Prop) (hgit : P (.git dir cmd args)) (hecho : ∀ m, P (.echo m)) :
    EmitsOnly (run_git_attempt dir cmd args check_rc exit_on_error fail_on target verbose) P := by
  apply emits_mBind _ _ _ (emits_run_git_cmd dir cmd args P hgit)
  intro r
  apply emits_mBind _ _ _ (emits_ite _ _ _ _ (emits_echoM _ _ hecho) (emits_mPure _ _))
  intro _
  apply emits_ite
  · apply emits_mBind
    · apply emits_ite
      · apply emits_mBind _ _ _ (emits_echoM _ _ hecho)
        intro _
        exact emits_ite _ _ _ _ (emits_mThrow _ _) (emits_mPure _ _)
      · exact emits_mPure _ _
    · intro _
      apply emits_ite
      · apply emits_mBind _ _ _ (emits_echoM _ _ hecho)
        intro _
        exact emits_mBind _ _ _ (emits_echoM _ _ hecho) (fun _ => emits_mThrow _ _)
      · exact emits_mPure _ _
  · exact emits_mPure _ _

theorem emits_withGitRetry (P : Eff → Prop) (hecho : ∀ m, P (.echo m)) :
    ∀ (fuel : Nat) (x : M Int), EmitsOnly x P → EmitsOnly (withGitRetry fuel x) P
  | 0, x, hx => by
    apply emits_mTry _ _ _ hx
    intro er
    cases er with
    | gitError msg =>
      exact emits_mBind _ _ _ (emits_echoM _ _ hecho) (fun _ => emits_mThrow _ _)
    | exit c => exact emits_mThrow _ _
    | pyExc m => exact emits_mThrow _ _
  | f + 1, x, hx => by
    apply emits_mTry _ _ _ hx
    intro er
    cases er with
    | gitError msg =>
      exact emits_mBind _ _ _ (emits_echoM _ _ hecho)
        (fun _ => emits_withGitRetry P hecho f x hx)
    | exit c => exact emits_mThrow _ _
    | pyExc m => exact emits_mThrow _ _

theorem emits_run_git (dir cmd : String) (args : List String)
    (check_rc exit_on_error : Bool) (fail_on : List String) (target : String) (verbose : Nat)
    (P : Eff → Prop) (hgit : P (.git dir cmd args)) (hecho : ∀ m, P (.echo m)) :
    EmitsOnly (run_git dir cmd args check_rc exit_on_error fail_on target verbose) P :=
  emits_withGitRetry P hecho 2 _
    (emits_run_git_attempt dir cmd args check_rc exit_on_error fail_on target verbose P
      hgit hecho)

theorem emits_read_fileM (file : String) (P : Eff → Prop) (hecho : ∀ m, P (.echo m)) :
    EmitsOnly (read_fileM file) P := by
  apply emits_mTry
  · apply emits_mBind _ _ _ (emits_getEnvM P)
    intro env
    apply emits_ite
    · exact emits_mBind _ _ _ (emits_echoM _ _ hecho) (fun _ => emits_mThrow _ _)
    · exact emits_mPure _ _
  · intro er
    exact emits_mBind _ _ _ (emits_echoM _ _ hecho) (fun _ => emits_mThrow _ _)

theorem emits_fix_manifestM (file repoDir target : String) (verbose : Nat) (dry_run : Bool)
    (P : Eff → Prop) (hecho : ∀ m, P (.echo m)) (hwrite : P (.fileWrite file))
    (hadd : P (.git repoDir "add" [file]))
    (hcommit : P (.git repoDir "commit"
      ["--message='Sync " ++ file ++ " to " ++ target ++ "'", "--no-verify"])) :
    EmitsOnly (fix_manifestM file repoDir target verbose dry_run) P := by
  apply emits_mTry
  · apply emits_mBind _ _ _ (emits_read_fileM file P hecho)
    intro _
    apply emits_mBind _ _ _ (emits_getEnvM P)
    intro env
    cases hF : fix_manifest_data file env.versionText (env.fileDoc file) with
    | error msg => exact emits_mThrow _ _
    | ok d' =>
      apply emits_mBind _ _ _ (emits_ite _ _ _ _ (emits_emit _ _ hwrite) (emits_mPure _ _))
      intro _
      apply emits_mBind _ _ _ (emits_run_git _ _ _ _ _ _ _ _ P hadd hecho)
      intro _
      apply emits_mBind _ _ _ (emits_run_git _ _ _ _ _ _ _ _ P hcommit hecho)
      intro _
      exact emits_mPure _ _
  · intro er
    exact emits_mBind _ _ _ (emits_echoM _ _ hecho) (fun _ => emits_mThrow _ _)

theorem emits_update_manifestM (manifest : Option String) (mf repoDir target : String)
    (dry_run : Bool) (verbose : Nat) (P : Eff → Prop) (hecho : ∀ m, P (.echo m))
    (hwrite : P (.fileWrite mf)) (hadd : P (.git repoDir "add" [mf]))
    (hcommit : P (.git repoDir "commit"
      ["--message='Sync " ++ mf ++ " to " ++ target ++ "'", "--no-verify"])) :
    EmitsOnly (update_manifestM manifest mf repoDir target dry_run verbose) P := by
  apply emits_mBind _ _ _ (emits_ite _ _ _ _ (emits_echoM _ _ hecho) (emits_mPure _ _))
  intro _
  apply emits_ite
  · exact emits_echoM _ _ hecho
  · apply emits_mBind
    · cases manifest with
      | some m => exact emits_emit _ _ hwrite
      | none => exact emits_mPure _ _
    · intro _
      apply emits_mBind _ _ _
        (emits_fix_manifestM mf repoDir target verbose dry_run P hecho hwrite hadd hcommit)
      intro _
      exact emits_mPure _ _

theorem emits_branchManifestPart (path : Option String) (repoDir branch target : String)
    (dry_run : Bool) (verbose : Nat) (P : Eff → Prop) (hecho : ∀ m, P (.echo m))
    (hwrite : ∀ f, P (.fileWrite f))
    (hco : P (.git repoDir "checkout" [target]))
    (hadd : ∀ f, P (.git repoDir "add" [f]))
    (hcommit : ∀ args, P (.git repoDir "commit" args)) :
    EmitsOnly (branchManifestPart path repoDir branch target dry_run verbose) P := by
  apply emits_mBind _ _ _ (emits_getEnvM P)
  intro env
  cases path with
  | none => exact emits_echoM _ _ hecho
  | some p =>
    apply emits_ite
    · apply emits_ite
      · exact emits_echoM _ _ hecho
      · apply emits_mBind _ _ _ (emits_read_fileM _ P hecho)
        intro manifest
        apply emits_mBind _ _ _ (emits_run_git _ _ _ _ _ _ _ _ P hco hecho)
        intro rc
        apply emits_ite
        · exact emits_mPure _ _
        · exact emits_update_manifestM _ _ _ _ _ _ P hecho (hwrite _) (hadd _) (hcommit _)
    · exact emits_echoM _ _ hecho

theorem emits_process_branch_normal (repoDir : String) (refIsRemote : Bool)
    (refName branch target : String) (dry_run : Bool) (verbose : Nat) (P : Eff → Prop)
    (hecho : ∀ m, P (.echo m))
    (hco : P (.git repoDir "checkout" [branch]))
    (hp1 : P (.git repoDir "pull" ["--rebase=false"]))
    (hp2 : P (.git repoDir "pull" ["--tags", "--force"])) :
    EmitsOnly (process_branch_normal repoDir refIsRemote refName branch target dry_run verbose)
      P := by
  apply emits_mBind
  · apply emits_ite
    · apply emits_mBind _ _ _ (emits_getEnvM P)
      intro env
      apply emits_ite
      · exact emits_ite _ _ _ _ (emits_echoM _ _ hecho) (emits_mPure _ _)
      · apply emits_ite
        · exact emits_echoM _ _ hecho
        · apply emits_mBind _ _ _ (emits_echoM _ _ hecho)
          intro _
          exact emits_mBind _ _ _ (emits_run_git _ _ _ _ _ _ _ _ P hco hecho)
            (fun _ => emits_mPure _ _)
    · exact emits_ite _ _ _ _ (emits_echoM _ _ hecho) (emits_mPure _ _)
  · intro _
    apply emits_mBind _ _ _ (emits_ite _ _ _ _ (emits_echoM _ _ hecho) (emits_mPure _ _))
    intro _
    apply emits_ite
    · exact emits_mBind _ _ _ (emits_echoM _ _ hecho) (fun _ => emits_mPure _ _)
    · apply emits_mBind _ _ _ (emits_run_git _ _ _ _ _ _ _ _ P hco hecho)
      intro rc1
      apply emits_ite
      · exact emits_mPure _ _
      · apply emits_mBind _ _ _ (emits_run_git _ _ _ _ _ _ _ _ P hp1 hecho)
        intro rc2
        apply emits_ite
        · exact emits_mPure _ _
        · apply emits_mBind _ _ _ (emits_run_git _ _ _ _ _ _ _ _ P hp2 hecho)
          intro _
          apply emits_mBind _ _ _ (emits_getIdxM P)
          intro k
          apply emits_mBind _ _ _ (emits_getEnvM P)
          intro env
          apply emits_ite
          · exact emits_mBind _ _ _ (emits_echoM _ _ hecho) (fun _ => emits_mPure _ _)
          · exact emits_mPure _ _

/-- The worktree case of `process_branch` in isolation: when the branch sits in
the worktree map at a path different from the primary working directory, the
whole processing stays inside the manifest-handling frame — echoes, file
writes, and git commands on the *primary* repository only (checkout of the
target, add, commit).  No fetch, no pull, nothing at the worktree path. -/
theorem emits_process_branch_worktree (repoDir refName branch target : String)
    (worktrees : List (String × String)) (refIsRemote : Bool) (dry_run : Bool) (verbose : Nat)
    (p : String) (hw : lookupWt worktrees branch = some p) (hne : (p == repoDir) = false)
    (P : Eff → Prop) (hecho : ∀ m, P (.echo m)) (hwrite : ∀ f, P (.fileWrite f))
    (hco : P (.git repoDir "checkout" [target])) (hadd : ∀ f, P (.git repoDir "add" [f]))
    (hcommit : ∀ args, P (.git repoDir "commit" args)) :
    EmitsOnly (process_branchM repoDir refIsRemote refName branch worktrees target
      dry_run verbose) P := by
  unfold process_branchM
  rw [hw]
  dsimp only
  rw [hne]
  exact emits_mBind _ _ _ (emits_ite _ _ _ _ (emits_echoM _ _ hecho) (emits_mPure _ _))
    (fun _ => emits_branchManifestPart (some p) repoDir branch target dry_run verbose
      P hecho hwrite hco hadd hcommit)

theorem emits_update_manifest_dry (manifest : Option String) (mf repoDir target : String)
    (verbose : Nat) (P : Eff → Prop) (hecho : ∀ m, P (.echo m)) :
    EmitsOnly (update_manifestM manifest mf repoDir target true verbose) P := by
  apply emits_mBind _ _ _ (emits_ite _ _ _ _ (emits_echoM _ _ hecho) (emits_mPure _ _))
  intro _
  exact emits_echoM _ _ hecho

theorem emits_branchManifestPart_dry (path : Option String) (repoDir branch target : String)
    (verbose : Nat) (P : Eff → Prop) (hecho : ∀ m, P (.echo m)) :
    EmitsOnly (branchManifestPart path repoDir branch target true verbose) P := by
  apply emits_mBind _ _ _ (emits_getEnvM P)
  intro env
  cases path with
  | none => exact emits_echoM _ _ hecho
  | some p =>
    apply emits_ite
    · exact emits_echoM _ _ hecho
    · exact emits_echoM _ _ hecho

theorem emits_process_branch_normal_dry (repoDir : String) (refIsRemote : Bool)
    (refName branch target : String) (verbose : Nat) (P : Eff → Prop)
    (hecho : ∀ m, P (.echo m)) :
    EmitsOnly (process_branch_normal repoDir refIsRemote refName branch target true verbose)
      P := by
  apply emits_mBind
  · apply emits_ite
    · apply emits_mBind _ _ _ (emits_getEnvM P)
      intro env
      apply emits_ite
      · exact emits_ite _ _ _ _ (emits_echoM _ _ hecho) (emits_mPure _ _)
      · exact emits_echoM _ _ hecho
    · exact emits_ite _ _ _ _ (emits_echoM _ _ hecho) (emits_mPure _ _)
  · intro _
    apply emits_mBind _ _ _ (emits_ite _ _ _ _ (emits_echoM _ _ hecho) (emits_mPure _ _))
    intro _
    exact emits_mBind _ _ _ (emits_echoM _ _ hecho) (fun _ => emits_mPure _ _)

theorem emits_process_branch_dry (repoDir : String) (refIsRemote : Bool)
    (refName branch : String) (worktrees : List (String × String)) (target : String)
    (verbose : Nat) (P : Eff → Prop) (hecho : ∀ m, P (.echo m)) :
    EmitsOnly (process_branchM repoDir refIsRemote refName branch worktrees target true verbose)
      P := by
  unfold process_branchM
  cases hL : lookupWt worktrees branch with
  | some p =>
    apply emits_ite
    · exact emits_mBind _ _ _ (emits_ite _ _ _ _ (emits_echoM _ _ hecho) (emits_mPure _ _))
        (fun _ => emits_branchManifestPart_dry _ _ _ _ _ P hecho)
    · apply emits_mBind _ _ _ (emits_process_branch_normal_dry _ _ _ _ _ _ P hecho)
      intro path
      cases path with
      | some pp => exact emits_branchManifestPart_dry _ _ _ _ _ P hecho
      | none => exact emits_mPure _ _
  | none =>
    apply emits_mBind _ _ _ (emits_process_branch_normal_dry _ _ _ _ _ _ P hecho)
    intro path
    cases path with
    | some pp => exact emits_branchManifestPart_dry _ _ _ _ _ P hecho
    | none => exact emits_mPure _ _

theorem emits_sync_target_dry (repoDir target : String) (verbose : Nat)
    (worktrees : List (String × String)) (P : Eff → Prop) (hecho : ∀ m, P (.echo m)) :
    EmitsOnly (sync_target_branchM repoDir target true verbose worktrees) P := by
  apply emits_mBind _ _ _ (emits_ite _ _ _ _ (emits_echoM _ _ hecho) (emits_mPure _ _))
  intro _
  exact emits_echoM _ _ hecho

theorem emits_print_environment (verbose : Nat) (P : Eff → Prop)
    (hecho : ∀ m, P (.echo m)) : EmitsOnly (print_environment_branchesM verbose) P := by
  apply emits_mBind _ _ _ (emits_getEnvM P)
  intro env
  apply emits_mForM
  intro name
  apply emits_ite
  · exact emits_echoM _ _ hecho
  · exact emits_ite _ _ _ _ (emits_echoM _ _ hecho) (emits_mPure _ _)

theorem emits_process_remote_refs_dry (repoDir target : String)
    (worktrees : List (String × String)) (verbose : Nat) (P : Eff → Prop)
    (hecho : ∀ m, P (.echo m)) :
    EmitsOnly (process_remote_refsM repoDir target worktrees true verbose) P := by
  apply emits_mBind _ _ _ (emits_ite _ _ _ _ (emits_echoM _ _ hecho) (emits_mPure _ _))
  intro _
  apply emits_mBind _ _ _ (emits_getEnvM P)
  intro env
  apply emits_mForM
  intro refName
  apply emits_ite
  · apply emits_ite
    · exact emits_mBind _ _ _ (emits_echoM _ _ hecho)
        (fun _ => emits_process_branch_dry _ _ _ _ _ _ _ P hecho)
    · exact emits_ite _ _ _ _ (emits_echoM _ _ hecho) (emits_mPure _ _)
  · exact emits_mPure _ _

theorem emits_initialize_repoM (target : String) (verbose : Nat) (P : Eff → Prop)
    (hecho : ∀ m, P (.echo m)) (hwt : ∀ d, P (.git d "worktree" ["list"])) :
    EmitsOnly (initialize_repoM target verbose) P := by
  apply emits_mBind _ _ _ (emits_getEnvM P)
  intro env
  apply emits_mBind _ _ _ (emits_run_git_cmd _ _ _ P (hwt _))
  intro r
  apply emits_ite
  · exact emits_mBind _ _ _ (emits_echoM _ _ hecho) (fun _ => emits_mThrow _ _)
  · apply emits_ite
    · exact emits_mBind _ _ _ (emits_ite _ _ _ _ (emits_echoM _ _ hecho) (emits_mPure _ _))
        (fun _ => emits_mPure _ _)
    · exact emits_mBind _ _ _ (emits_echoM _ _ hecho) (fun _ => emits_mThrow _ _)

theorem emits_compare_branchesM (repoDir : String) (verbose : Nat) (P : Eff → Prop)
    (hecho : ∀ m, P (.echo m)) (hfetch : P (.git repoDir "fetch" ["--all", "--prune"])) :
    EmitsOnly (compare_branchesM repoDir verbose) P := by
  apply emits_mBind _ _ _ (emits_ite _ _ _ _ (emits_echoM _ _ hecho) (emits_mPure _ _))
  intro _
  apply emits_mBind _ _ _ (emits_run_git _ _ _ _ _ _ _ _ P hfetch hecho)
  intro _
  apply emits_mBind _ _ _ (emits_getEnvM P)
  intro env
  exact emits_mPure _ _

theorem emits_prune_dry (repoDir : String) (local_only : List String) (verbose : Nat)
    (P : Eff → Prop) (hecho : ∀ m, P (.echo m)) :
    EmitsOnly (prune_local_branchesM repoDir local_only true verbose) P := by
  unfold prune_local_branchesM
  apply emits_ite
  · exact emits_ite _ _ _ _ (emits_echoM _ _ hecho) (emits_mPure _ _)
  · apply emits_mBind _ _ _ (emits_ite _ _ _ _ (emits_echoM _ _ hecho) (emits_mPure _ _))
    intro _
    apply emits_mForM
    intro branch
    exact emits_echoM _ _ hecho

/-- In dry-run mode the whole orchestration emits only echoes, the worktree
listing and the prune-time fetch: no file write, no checkout, no pull, no add,
no commit, no branch deletion. -/
theorem emits_sync_branches_dry (target : String) (verbose : Nat) (sync prune : Bool)
    (P : Eff → Prop) (hecho : ∀ m, P (.echo m))
    (hwt : ∀ d, P (.git d "worktree" ["list"]))
    (hfetch : ∀ d, P (.git d "fetch" ["--all", "--prune"])) :
    EmitsOnly (sync_branchesM target true verbose sync prune) P := by
  apply emits_mTry
  · apply emits_mBind _ _ _ (emits_ite _ _ _ _ (emits_echoM _ _ hecho) (emits_mPure _ _))
    intro _
    apply emits_mBind _ _ _ (emits_getEnvM P)
    intro env
    apply emits_mBind _ _ _ (emits_initialize_repoM _ _ P hecho hwt)
    intro worktrees
    apply emits_mBind
    · apply emits_ite
      · apply emits_mBind _ _ _ (emits_compare_branchesM _ _ P hecho (hfetch _))
        intro cmp
        apply emits_ite
        · exact emits_prune_dry _ _ _ P hecho
        · exact emits_mPure _ _
      · exact emits_mPure _ _
    · intro _
      apply emits_mBind _ _ _ (emits_sync_target_dry _ _ _ _ P hecho)
      intro _
      apply emits_mBind _ _ _ (emits_print_environment _ P hecho)
      intro _
      apply emits_mBind _ _ _
        (emits_ite _ _ _ _ (emits_process_remote_refs_dry _ _ _ _ P hecho) (emits_mPure _ _))
      intro _
      apply emits_ite
      · exact emits_update_manifest_dry _ _ _ _ _ P hecho
      · exact emits_echoM _ _ hecho
  · intro er
    exact emits_mBind _ _ _ (emits_echoM _ _ hecho) (fun _ => emits_mThrow _ _)

/-! ### The three effect claims -/

/-- An effect that dry-run mode promises never to perform: a file write or a
git commit. -/
def badEff : Eff → Bool
  | .fileWrite _ => true
  | .git _ cmd _ => cmd == "commit"
  | .echo _ => false

/-- Effects allowed while processing a worktree-resident branch: echoes, file
writes, and git commands on the primary repository restricted to checkout, add
and commit. -/
def wtFrame (repoDir : String) : Eff → Bool
  | .echo _ => true
  | .fileWrite _ => true
  | .git d cmd _ => d == repoDir && (cmd == "checkout" || cmd == "add" || cmd == "commit")

/-- C2 (amended): at the orchestration level, dry-run mode performs zero file
writes and zero commits whatever the other flags: every effect the whole sync
emits under `dry_run = true` — in any environment, for any target, verbosity,
sync and prune settings — is neither a file write nor a git commit.  (The
second half of the original sentence is refuted by `c2_counterexample`: the
manifest fixer itself guards only the file write behind dry-run and stages and
commits unconditionally; the engine stays clean only because every call site
reaching the fixer returns early under dry-run.) -/
theorem c2_dry_run_no_writes (target : String) (verbose : Nat) (sync prune : Bool)
    (env : Env) (n : Nat) (e : Eff)
    (he : e ∈ (sync_branchesM target true verbose sync prune env n).2.2) :
    badEff e = false :=
  emits_sync_branches_dry target verbose sync prune (fun e => badEff e = false)
    (fun _ => rfl) (fun _ => by simp [badEff]) (fun _ => by simp [badEff]) env n e he

/-- The environment for the dry-run witness: one local branch `main`, nothing
remote, all git commands succeeding. -/
def c2env : Env :=
  ⟨[], fun _ => false, fun _ => "", fun _ => .dnil, fun _ => false,
    ["main"], [], "/repo", fun _ => "main", "1.2.3"⟩

/-- Witness for `c2_dry_run_no_writes`: a concrete dry run whose trace contains
the worktree listing, which indeed is neither a write nor a commit. -/
theorem c2_dry_run_no_writes_witness :
    Eff.git "/repo" "worktree" ["list"]
        ∈ (sync_branchesM "main" true 0 false false c2env 0).2.2 ∧
      badEff (.git "/repo" "worktree" ["list"]) = false :=
  ⟨by decide, c2_dry_run_no_writes "main" 0 false false c2env 0 _ (by decide)⟩

/-- The environment for the dry-run counterexample: a well-formed manifest
behind every path, all git commands succeeding. -/
def c2cexEnv : Env :=
  ⟨[], fun _ => true, fun _ => "", fun _ =>
      .dcons "metadata" (.vDict (.dcons "version" (.vStr "1.2.3") .dnil)) .dnil,
    fun _ => false, ["main"], [], "/repo", fun _ => "main", "1.2.3"⟩

/-- C2, counterexample to the original sentence: called with `dry_run = true`,
`fix_manifest` still emits a git commit (and a git add) — only its file write
is guarded by the dry-run flag. -/
theorem c2_counterexample :
    ((fix_manifestM "config/ld--a--b--c.yaml" "/repo" "main" 0 true c2cexEnv 0).2.2.contains
        (.git "/repo" "commit"
          ["--message='Sync config/ld--a--b--c.yaml to main'", "--no-verify"]) = true) ∧
      ((fix_manifestM "config/ld--a--b--c.yaml" "/repo" "main" 0 true c2cexEnv 0).2.2.all
        (fun e => match e with | .fileWrite _ => false | _ => true) = true) := by
  exact ⟨by decide, by decide⟩

/-- The environment for the fatal-checkout run: the worktree listing, both
fetches, the target checkout and the target pull succeed (stream entries 0-4);
from entry 5 on every git command fails with return code 1 and a nonempty
stderr. -/
def c1env : Env :=
  ⟨[(0, "", ""), (0, "", ""), (0, "", ""), (0, "", ""), (0, "", ""),
      (1, "", "error: pathspec"), (1, "", "error: pathspec"), (1, "", "error: pathspec")],
    fun _ => false, fun _ => "", fun _ => .dnil, fun _ => false,
    ["main", "ld--a--b--c"], ["origin/ld--a--b--c"], "/repo", fun _ => "main", "1.2.3"⟩

/-- C1 is false of the code: a checkout failure with nonempty stderr while
syncing a candidate branch raises `GitCommandError` after the three backoff
tries (the `error_on_fail=False` keyword at the call site is not a `run_git`
parameter — it is swallowed by `**kwargs` — so nothing downgrades the raise),
the exception escapes `process_branch` and the branch loop, and the top-level
handler of `sync_branches` turns it into `typer.Exit(1)`: the run ends with a
non-zero exit, not with the branch being skipped.  Concretely, with git
failing from stream entry 5 on, processing the one candidate branch errors
with the `GitCommandError`, and the whole sync exits 1. -/
theorem c1_checkout_failure_fatal :
    (process_branchM "/repo" true "origin/ld--a--b--c" "ld--a--b--c" [] "main"
        false 0 c1env 5).1 = .error (.gitError "Failed to checkout main") ∧
      (sync_branchesM "main" false 0 true false c1env 0).1 = .error (.exit 1) := by
  exact ⟨by decide, by decide⟩

/-- The environment for the worktree-branch runs: the manifest exists under
the worktree path, parses to a normalized document, and all git commands
succeed. -/
def c6env : Env :=
  ⟨[], fun _ => true, fun _ => "", fun _ =>
      .dcons "metadata" (.vDict (.dcons "version" (.vStr "1.2.3") .dnil)) .dnil,
    fun _ => false, ["main", "ld--a--b--c"], [], "/repo", fun _ => "main", "1.2.3"⟩

/-- C6, counterexample to the original sentence: processing the
worktree-resident branch `ld--a--b--c` (mapped to `/wt`, distinct from the
primary `/repo`) runs `checkout main` on the *primary* repository and never
fetches, never pulls, and never runs any git command at the worktree path. -/
theorem c6_counterexample :
    ((process_branchM "/repo" true "origin/ld--a--b--c" "ld--a--b--c"
          [("ld--a--b--c", "/wt")] "main" false 0 c6env 0).2.2.contains
        (.git "/repo" "checkout" ["main"]) = true) ∧
      ((process_branchM "/repo" true "origin/ld--a--b--c" "ld--a--b--c"
          [("ld--a--b--c", "/wt")] "main" false 0 c6env 0).2.2.all
        (fun e => match e with
          | .git d cmd _ => !(cmd == "fetch") && !(cmd == "pull") && !(d == "/wt")
          | _ => true) = true) := by
  exact ⟨by decide, by decide⟩

/-- C6 (amended): a branch present in the worktree map at a path different
from the primary working directory skips the sync entirely — processing it
emits no fetch and no pull anywhere (in particular not at the worktree path),
and every git command it does run targets the primary repository and is a
checkout of the target, an add, or a commit; the fetch(all,tags)-then-pull at
the worktree path that the original sentence describes is what
`sync_target_branch` does, for the target branch only. -/
theorem c6_worktree_processing (repoDir refName branch target : String)
    (worktrees : List (String × String)) (refIsRemote : Bool) (dry_run : Bool) (verbose : Nat)
    (p : String) (hw : lookupWt worktrees branch = some p) (hne : (p == repoDir) = false)
    (env : Env) (n : Nat) (e : Eff)
    (he : e ∈ (process_branchM repoDir refIsRemote refName branch worktrees target
      dry_run verbose env n).2.2) :
    wtFrame repoDir e = true :=
  emits_process_branch_worktree repoDir refName branch target worktrees refIsRemote dry_run
    verbose p hw hne (fun e => wtFrame repoDir e = true)
    (fun _ => rfl) (fun _ => rfl)
    (by simp [wtFrame]) (fun _ => by simp [wtFrame]) (fun _ => by simp [wtFrame])
    env n e he

/-- Witness for `c6_worktree_processing` at the concrete worktree branch. -/
theorem c6_worktree_processing_witness :
    (lookupWt [("ld--a--b--c", "/wt")] "ld--a--b--c" = some "/wt"
        ∧ (("/wt" : String) == "/repo") = false
        ∧ Eff.git "/repo" "checkout" ["main"]
            ∈ (process_branchM "/repo" true "origin/ld--a--b--c" "ld--a--b--c"
              [("ld--a--b--c", "/wt")] "main" false 0 c6env 0).2.2)
      ∧ wtFrame "/repo" (.git "/repo" "checkout" ["main"]) = true :=
  ⟨⟨by decide, by decide, by decide⟩,
    c6_worktree_processing "/repo" "origin/ld--a--b--c" "ld--a--b--c" "main"
      [("ld--a--b--c", "/wt")] true false 0 "/wt" (by decide) (by decide)
      c6env 0 _ (by decide)⟩

end SyncEnvBranches
